import Mathlib

/-!
Verification development for the typed-mongo code generator.

The Python sources under `typed_mongo_gen` (files `introspect.py`,
`codegen.py`, `cli.py`) are shallowly embedded below.  Pydantic model
classes become `ModelDecl` values identified by a numeric id; a type
annotation becomes the inductive `Ann`; the registry of classes in scope
becomes an `Env` (list of declarations) in which the walker looks up the
fields of a class.  Python's recursion over an in-memory (possibly
cyclic) class graph is rendered total with an explicit recursion-depth
fuel; `collect_field_paths` supplies the canonical fuel `env.length + 1`,
and the termination theorem shows this fuel is always sufficient for
environments whose annotations only mention declared classes.
-/

/-- Byte-wise (code-point) lexicographic comparison of character lists,
the order Python's `sorted` uses on `str`. -/
def chLeB : List Char → List Char → Bool
  | [], _ => true
  | _ :: _, [] => false
  | a :: as, b :: bs =>
    if a.toNat < b.toNat then true
    else if b.toNat < a.toNat then false
    else chLeB as bs

/-- Lexicographic `≤` on strings by code points (Python's string order). -/
def strLeB (a b : String) : Bool := chLeB a.data b.data

/-- Model of Python's `sorted` on a list of strings. -/
def sortedStrings (l : List String) : List String :=
  l.insertionSort (fun a b => strLeB a b = true)

/-- Model of adding an element to a Python `set` whose final use is
order-insensitive: append if absent. -/
def setAdd (s : List String) (x : String) : List String :=
  if x ∈ s then s else s ++ [x]

/-- Identity and attributes of a Python class object (`__module__`,
`__name__`, and whether it is a `pydantic.BaseModel` subclass).  `mid`
is the object identity used by `in`-checks on sets of classes. -/
structure ClsInfo where
  mid : Nat
  module : String
  name : String
  isModel : Bool
deriving DecidableEq

/-- Value of `FieldInfo.validation_alias`: either a plain string or one
of the non-string alias objects (`AliasChoices`/`AliasPath`). -/
inductive VAlias where
  | str (s : String)
  | nonStr
deriving DecidableEq

/-- A Python type annotation as the generator inspects it: the exact
shapes distinguished by `get_origin`/`get_args`/`isinstance` in
`introspect.py` and `codegen.py`. -/
inductive Ann where
  | noneType
  | builtin (name : String)
  | cls (c : ClsInfo)
  | listOf (args : List Ann)
  | dictOf (args : List Ann)
  | unionOf (args : List Ann)
  | lit (reprs : List String)
  | anyTy
  | annotated (inner : Ann)
  | aliasTy (value : Ann)
  | other (repr : String)

/-- One Pydantic field: declared name, alias metadata, and its
annotation (`ann`). -/
structure FieldInfo where
  name : String
  serialization_alias : Option String
  validation_alias : Option VAlias
  ann : Ann

/-- A declared model class: its class object (`info`), the
`alias_generator` from `model_config`, and `model_fields` in
declaration order. -/
structure ModelDecl where
  info : ClsInfo
  alias_generator : Option (String → String)
  fields : List FieldInfo

/-- The universe of class declarations in scope for one generation run. -/
abbrev Env := List ModelDecl

/-- Looks up the declaration of class id `mid` (attribute access on the
class object in Python). -/
def lookupDecl (env : Env) (mid : Nat) : Option ModelDecl :=
  env.find? (fun d => d.info.mid = mid)

/-- The fieldless declaration used when a class id is not declared in
`env`; a real program never produces this (every class object carries
its fields), it only keeps the embedding total. -/
def defaultDecl (c : ClsInfo) : ModelDecl := ⟨c, none, []⟩

/-- The declaration walked for an extracted nested class. -/
def declOf (env : Env) (c : ClsInfo) : ModelDecl :=
  (lookupDecl env c.mid).getD (defaultDecl c)

/-- Embedding of `introspect._resolve_alias`: serialization alias, else
a plain-string validation alias, else the model's `alias_generator`
applied to the declared name, else the declared name. -/
def _resolve_alias (m : ModelDecl) (f : FieldInfo) : String :=
  match f.serialization_alias with
  | some a => a
  | none =>
    match f.validation_alias with
    | some (VAlias.str a) => a
    | _ =>
      match m.alias_generator with
      | some gen => gen f.name
      | none => f.name

mutual
/-- Embedding of `introspect._extract_base_models`: the `BaseModel`
subclasses reachable from an annotation through `TypeAliasType`,
`Annotated`, `list` and `Union` wrappers (skipping `None` variants). -/
def _extract_base_models : Ann → List ClsInfo
  | .aliasTy v => _extract_base_models v
  | .annotated x => _extract_base_models x
  | .listOf [] => []
  | .listOf (a :: _) => _extract_base_models a
  | .unionOf args => extractFromVariants args
  | .cls c => if c.isModel then [c] else []
  | _ => []

/-- The `for arg in get_args(...)` loop of the `Union` branch of
`_extract_base_models`; `None` variants are skipped. -/
def extractFromVariants : List Ann → List ClsInfo
  | [] => []
  | .noneType :: rest => extractFromVariants rest
  | a :: rest => _extract_base_models a ++ extractFromVariants rest
end

/-- Python's `full_path = f"{prefix}{alias}" if not prefix else
f"{prefix}.{alias}"` (note: the truthiness test makes the first arm the
empty-prefix case). -/
def joinPath (pre al : String) : String :=
  if pre = "" then al else pre ++ "." ++ al

/-- The inner `for nested in nested_models` loop of `_walk` (and,
instantiated at a different accumulator type, of `_walk_with_types`):
skip classes in the ancestor set `seen`, otherwise recurse through
`rec` with the nested class added to `seen`. -/
def _walkNested {α : Type} (rec : ModelDecl → String → α → List Nat → Option α)
    (env : Env) : List ClsInfo → String → α → List Nat → Option α
  | [], _, acc, _ => some acc
  | n :: rest, full, acc, seen =>
    if n.mid ∈ seen then _walkNested rec env rest full acc seen
    else
      match rec (declOf env n) full acc (n.mid :: seen) with
      | none => none
      | some acc2 => _walkNested rec env rest full acc2 seen

/-- The `for field_name in model.model_fields` loop of `_walk`: resolve
the alias, record the full path in the path set, then walk each nested
model extracted from the field's annotation. -/
def _walkFields (rec : ModelDecl → String → List String → List Nat → Option (List String))
    (env : Env) (m : ModelDecl) :
    List FieldInfo → String → List String → List Nat → Option (List String)
  | [], _, paths, _ => some paths
  | f :: rest, pre, paths, seen =>
    match _walkNested rec env (_extract_base_models f.ann)
        (joinPath pre (_resolve_alias m f))
        (setAdd paths (joinPath pre (_resolve_alias m f))) seen with
    | none => none
    | some paths2 => _walkFields rec env m rest pre paths2 seen

/-- Embedding of `introspect._walk` with explicit recursion fuel: one
unit of fuel is consumed per nesting level of models. -/
def _walk (env : Env) : Nat → ModelDecl → String → List String → List Nat → Option (List String)
  | 0, _, _, _, _ => none
  | Nat.succ fuel, m, pre, paths, seen => _walkFields (_walk env fuel) env m m.fields pre paths seen

/-- Fuel that the termination theorem proves sufficient for any
traversal over `env`. -/
def walkFuel (env : Env) : Nat := env.length + 1

/-- Embedding of `introspect.collect_field_paths`: run `_walk` from the
root with empty prefix, path set and ancestor set, and return the
paths sorted (Python's `sorted(paths)`). -/
def collect_field_paths (env : Env) (m : ModelDecl) : Option (List String) :=
  (_walk env (walkFuel env) m "" [] []).map sortedStrings

/-- Python dict assignment `d[k] = v`: update in place if the key is
present (keeping its position), else append. -/
def dictInsert (d : List (String × Ann)) (k : String) (v : Ann) : List (String × Ann) :=
  if d.any (fun p => p.1 = k) then
    d.map (fun p => if p.1 = k then (p.1, v) else p)
  else d ++ [(k, v)]

/-- The field loop of `_walk_with_types`: identical traversal to
`_walkFields`, but recording `path_types[full_path] = annotation`
instead of adding to a set. -/
def _walkTypedFields (rec : ModelDecl → String → List (String × Ann) → List Nat → Option (List (String × Ann)))
    (env : Env) (m : ModelDecl) :
    List FieldInfo → String → List (String × Ann) → List Nat → Option (List (String × Ann))
  | [], _, d, _ => some d
  | f :: rest, pre, d, seen =>
    match _walkNested rec env (_extract_base_models f.ann)
        (joinPath pre (_resolve_alias m f))
        (dictInsert d (joinPath pre (_resolve_alias m f)) f.ann) seen with
    | none => none
    | some d2 => _walkTypedFields rec env m rest pre d2 seen

/-- Embedding of `introspect._walk_with_types` with the same fuel
discipline as `_walk`. -/
def _walk_with_types (env : Env) : Nat → ModelDecl → String → List (String × Ann) → List Nat → Option (List (String × Ann))
  | 0, _, _, _, _ => none
  | Nat.succ fuel, m, pre, d, seen => _walkTypedFields (_walk_with_types env fuel) env m m.fields pre d seen

/-- Embedding of `introspect.collect_field_path_types`: the same
traversal as `collect_field_paths` but returning the insertion-ordered
path → annotation dict (no sorting). -/
def collect_field_path_types (env : Env) (m : ModelDecl) : Option (List (String × Ann)) :=
  _walk_with_types env (walkFuel env) m "" [] []

/-- Lookup in the `module_aliases` dict: Python's
`module_aliases and module in module_aliases` / `module_aliases[module]`. -/
def lookupAlias (aliases : List (String × String)) (m : String) : Option String :=
  (aliases.find? (fun p => p.1 = m)).map (fun p => p.2)

/-- Embedding of `codegen._module_alias`: prefix an underscore and turn
each dot of the module path into an underscore (`module.replace(".", "_")`
character by character). -/
def _module_alias (module : String) : String :=
  "_" ++ String.mk (module.data.map (fun c => if c = '.' then '_' else c))

mutual
/-- Embedding of `codegen._annotation_to_source`: render a runtime type
annotation as Python source, qualifying class names whose module has an
alias in `module_aliases`. -/
def _annotation_to_source (aliases : List (String × String)) : Ann → String
  | .noneType => "None"
  | .aliasTy v => _annotation_to_source aliases v
  | .annotated x => _annotation_to_source aliases x
  | .unionOf parts => String.intercalate " | " (annListToSource aliases parts)
  | .listOf [] => "list"
  | .listOf (a :: _) => "list[" ++ _annotation_to_source aliases a ++ "]"
  | .dictOf [k, v] =>
    "dict[" ++ _annotation_to_source aliases k ++ ", " ++ _annotation_to_source aliases v ++ "]"
  | .dictOf _ => "dict"
  | .lit reprs => "Literal[" ++ String.intercalate ", " reprs ++ "]"
  | .anyTy => "Any"
  | .builtin n => n
  | .cls c =>
    match lookupAlias aliases c.module with
    | some al => al ++ "." ++ c.name
    | none => c.name
  | .other r => r

/-- Rendering of each variant of a `Union`, in order, for the
pipe-joined union source. -/
def annListToSource (aliases : List (String × String)) : List Ann → List String
  | [] => []
  | a :: rest => _annotation_to_source aliases a :: annListToSource aliases rest
end

/-- Embedding of `codegen._query_value_type_src`: for an n-deep `list`
annotation the query value source is `inner | full_list`, recursively;
every other shape renders exactly as `_annotation_to_source`. -/
def _query_value_type_src (aliases : List (String × String)) : Ann → String
  | .aliasTy v => _query_value_type_src aliases v
  | .annotated x => _query_value_type_src aliases x
  | .listOf (a :: rest) =>
    _query_value_type_src aliases a ++ " | " ++ _annotation_to_source aliases (.listOf (a :: rest))
  | a => _annotation_to_source aliases a

/-- Model of adding one `(module, name)` pair to the import set. -/
def setAddPair (s : List (String × String)) (x : String × String) : List (String × String) :=
  if x ∈ s then s else s ++ [x]

mutual
/-- Embedding of `codegen._collect_imports_inner`: accumulate the
`(module, name)` pairs an annotation requires. -/
def _collect_imports_inner : Ann → List (String × String) → List (String × String)
  | .noneType, imps => imps
  | .aliasTy v, imps => _collect_imports_inner v imps
  | .annotated x, imps => _collect_imports_inner x imps
  | .unionOf args, imps => collectImportsFromArgs args imps
  | .listOf [], imps => imps
  | .listOf (a :: _), imps => _collect_imports_inner a imps
  | .dictOf args, imps => collectImportsFromArgs args imps
  | .lit _, imps => setAddPair imps ("typing", "Literal")
  | .anyTy, imps => imps
  | .builtin _, imps => imps
  | .cls c, imps => if c.module ≠ "builtins" then setAddPair imps (c.module, c.name) else imps
  | .other _, imps => imps

/-- The `for arg in get_args(annotation)` loops of the `Union` and
`dict` branches of `_collect_imports_inner`. -/
def collectImportsFromArgs : List Ann → List (String × String) → List (String × String)
  | [], imps => imps
  | a :: rest, imps => collectImportsFromArgs rest (_collect_imports_inner a imps)
end

/-- Embedding of `codegen._collect_imports`. -/
def _collect_imports (a : Ann) : List (String × String) := _collect_imports_inner a []

/-- Set union `s |= t` on import sets. -/
def unionPairs (s t : List (String × String)) : List (String × String) :=
  t.foldl setAddPair s

/-- Python's `d.setdefault(k, []).append(v)` on the name → modules dict
of `_build_module_aliases`. -/
def setdefaultAppend (d : List (String × List String)) (k v : String) : List (String × List String) :=
  if d.any (fun p => p.1 = k) then
    d.map (fun p => if p.1 = k then (p.1, p.2 ++ [v]) else p)
  else d ++ [(k, [v])]

/-- The `name_to_modules` dict of `_build_module_aliases`, built by the
`for module, name in user_imports` loop. -/
def nameToModules (user : List (String × String)) : List (String × List String) :=
  user.foldl (fun d p => setdefaultAppend d p.2 p.1) []

/-- Embedding of `codegen._build_module_aliases`: drop `typing` imports,
group the remaining (deduplicated) pairs by bare name, mark every module
of a group claimed by more than one module as conflicting, and map each
conflicting module to its synthetic alias. -/
def _build_module_aliases (all_imports : List (String × String)) : List (String × String) :=
  let user := (all_imports.filter (fun p => p.1 ≠ "typing")).dedup
  let groups := nameToModules user
  let conflicting := (groups.filter (fun g => 1 < g.2.length)).foldl (fun acc g => acc ++ g.2) []
  conflicting.map (fun m => (m, _module_alias m))

/-- Python's `d.setdefault(k, set()).add(v)` on module → names dicts. -/
def assocAddToSet (d : List (String × List String)) (k v : String) : List (String × List String) :=
  if d.any (fun p => p.1 = k) then
    d.map (fun p => if p.1 = k then (p.1, setAdd p.2 v) else p)
  else d ++ [(k, [v])]

/-- Lookup of a string-set value in a module → names dict. -/
def assocGetStrs (d : List (String × List String)) (k : String) : List String :=
  ((d.find? (fun p => p.1 = k)).map (fun p => p.2)).getD []

/-- The generated-file banner both outputs start with. -/
def headerText : String :=
  "\"\"\"Auto-generated MongoDB field path types.\n\nDo not edit manually. Regenerate with:\n    typed-mongo-gen <sources> --output <output>\n\"\"\"\n\n"

/-- Runtime-file half of `codegen._write_headers`: banner, fixed imports,
and one direct import line per model module (sorted). -/
def runtimeHeaderChunks (model_imports : List (String × List String)) : List String :=
  [headerText,
   "from typing import Any\n",
   "from pymongo.asynchronous.database import AsyncDatabase\n",
   "from typed_mongo import TypedCollection\n"]
  ++ (sortedStrings (model_imports.map Prod.fst)).map (fun module =>
      "from " ++ module ++ " import " ++
        String.intercalate ", " (sortedStrings (assocGetStrs model_imports module)) ++ "\n")
  ++ ["\n"]

/-- The `typing_names` set of `_write_headers`. -/
def typingNames (all_imports : List (String × String)) : List String :=
  setAdd (setAdd (setAdd
      (((all_imports.filter (fun p => p.1 = "typing")).map (fun p => p.2)).foldl setAdd [])
      "Literal") "TypedDict") "Any"

/-- The `direct_by_module` dict of `_write_headers`: names imported with
a plain `from module import name`, i.e. every non-`typing`,
non-aliased module. -/
def directByModule (all_imports : List (String × String))
    (module_aliases : List (String × String)) : List (String × List String) :=
  all_imports.foldl (fun acc p =>
    if p.1 = "typing" then acc
    else if (lookupAlias module_aliases p.1).isSome then acc
    else assocAddToSet acc p.1 p.2) []

/-- Stub-file half of `codegen._write_headers`: banner, lint pragma,
`typing` imports, direct imports for non-conflicting modules, aliased
imports for conflicting modules, then the fixed driver imports. -/
def stubHeaderChunks (all_imports : List (String × String))
    (module_aliases : List (String × String)) : List String :=
  [headerText,
   "# ruff: noqa: E501\n\n",
   "from typing import " ++ String.intercalate ", " (sortedStrings (typingNames all_imports)) ++ "\n"]
  ++ (sortedStrings ((directByModule all_imports module_aliases).map Prod.fst)).map (fun module =>
      "from " ++ module ++ " import " ++
        String.intercalate ", " (sortedStrings (assocGetStrs (directByModule all_imports module_aliases) module)) ++ "\n")
  ++ (sortedStrings ((module_aliases.map Prod.fst).dedup)).map (fun module =>
      "import " ++ module ++ " as " ++ ((lookupAlias module_aliases module).getD "") ++ "\n")
  ++ ["from pymongo.asynchronous.database import AsyncDatabase\n",
      "from typed_mongo import TypedCollection\n",
      "from typed_mongo.operators import Op\n",
      "\n"]

/-- Lookup `path_types[path]` (the key is always present when used). -/
def dictGet (d : List (String × Ann)) (k : String) : Ann :=
  ((d.find? (fun p => p.1 = k)).map (fun p => p.2)).getD Ann.anyTy

/-- Python's `sorted(path_types)`: the dict's keys, sorted. -/
def sortedKeys (d : List (String × Ann)) : List String :=
  sortedStrings (d.map Prod.fst)

/-- Value source of one entry of the query TypedDict in `_write_model`:
`dict[str, Any]` fields stay bare, every other field is wrapped
`Op[query-value-source]`. -/
def queryEntrySrc (aliases : List (String × String)) (a : Ann) : String :=
  let type_src := _annotation_to_source aliases a
  if type_src = "dict[str, Any]" then type_src
  else "Op[" ++ _query_value_type_src aliases a ++ "]"

/-- The `(key, value-source)` pairs of the query TypedDict emitted by
`_write_model`: one per path in sorted order, then the one catch-all
`"$expr"` entry appended by the fixed write after the loop. -/
def queryEntries (aliases : List (String × String))
    (path_types : List (String × Ann)) : List (String × String) :=
  (sortedKeys path_types).map (fun p => (p, queryEntrySrc aliases (dictGet path_types p)))
  ++ [("$expr", "dict[str, Any]")]

/-- Runtime-file section of `codegen._write_model`. -/
def runtimeModelChunks (model_name : String) : List String :=
  ["# " ++ model_name ++ "\n",
   "type " ++ model_name ++ "Path = str\n",
   model_name ++ "Query = dict[str, Any]\n",
   model_name ++ "Fields = dict[str, Any]\n\n",
   "class " ++ model_name ++ "Collection(TypedCollection):\n",
   "    def __init__(self, db: AsyncDatabase[dict[str, Any]]) -> None:\n",
   "        super().__init__(" ++ model_name ++ ", " ++ model_name ++ ".get_collection(db))\n\n\n"]

/-- Stub-file section of `codegen._write_model`: the path `Literal`, the
query TypedDict (via `queryEntries`), the exact-fields TypedDict, and
the typed collection class. -/
def stubModelChunks (env : Env) (model_name : String) (model : ModelDecl)
    (path_types : List (String × Ann))
    (module_aliases : List (String × String)) : Option (List String) :=
  match collect_field_paths env model with
  | none => none
  | some paths => some (
      ["type " ++ model_name ++ "Path = Literal[\n"]
      ++ paths.map (fun p => "    \"" ++ p ++ "\",\n")
      ++ ["]\n\n"]
      ++ [model_name ++ "Query = TypedDict(\"" ++ model_name ++ "Query\", \x7b\n"]
      ++ (queryEntries module_aliases path_types).map (fun e =>
            "    \"" ++ e.1 ++ "\": " ++ e.2 ++ ",\n")
      ++ ["\x7d, total=False)\n\n"]
      ++ [model_name ++ "Fields = TypedDict(\"" ++ model_name ++ "Fields\", \x7b\n"]
      ++ (sortedKeys path_types).map (fun p =>
            "    \"" ++ p ++ "\": " ++ _annotation_to_source module_aliases (dictGet path_types p) ++ ",\n")
      ++ ["\x7d, total=False)\n\n"]
      ++ ["class " ++ model_name ++ "Collection(TypedCollection[" ++
            _annotation_to_source module_aliases (Ann.cls model.info) ++ ", " ++
            model_name ++ "Path, " ++ model_name ++ "Query, " ++ model_name ++ "Fields]):\n",
          "    def __init__(self, db: AsyncDatabase[dict[str, Any]]) -> None: ...\n\n\n"])

/-- Embedding of `codegen._write_model`: the chunks appended to each of
the two output files for one model. -/
def _write_model (env : Env) (model_name : String) (model : ModelDecl)
    (path_types : List (String × Ann))
    (module_aliases : List (String × String)) : Option (List String × List String) :=
  match stubModelChunks env model_name model path_types module_aliases with
  | none => none
  | some stub => some (runtimeModelChunks model_name, stub)

/-- Aggregation loop of `codegen.write_field_paths`: per model, collect
its path → annotation dict, union its imports into `all_imports`, and
record the model class itself for both import sets. -/
def aggregateModels (env : Env) :
    List (String × ModelDecl) → List (String × String) →
    List (String × List (String × Ann)) → List (String × List String) →
    Option (List (String × String) × List (String × List (String × Ann)) × List (String × List String))
  | [], ai, mpt, mi => some (ai, mpt, mi)
  | (name, model) :: rest, ai, mpt, mi =>
    match collect_field_path_types env model with
    | none => none
    | some path_types =>
      let ai2 := path_types.foldl (fun s kv => unionPairs s (_collect_imports kv.2)) ai
      if model.info.module ≠ "builtins" then
        aggregateModels env rest
          (setAddPair ai2 (model.info.module, model.info.name))
          (mpt ++ [(name, path_types)])
          (assocAddToSet mi model.info.module model.info.name)
      else
        aggregateModels env rest ai2 (mpt ++ [(name, path_types)]) mi

/-- Lookup `model_path_types[name]`. -/
def assocGetPT (d : List (String × List (String × Ann))) (k : String) : List (String × Ann) :=
  ((d.find? (fun p => p.1 = k)).map (fun p => p.2)).getD []

/-- The per-model emission loop of `write_field_paths`. -/
def writeModelsLoop (env : Env) :
    List (String × ModelDecl) → List (String × List (String × Ann)) →
    List (String × String) → List String → List String →
    Option (List String × List String)
  | [], _, _, rt, st => some (rt, st)
  | (name, model) :: rest, mpt, module_aliases, rt, st =>
    match _write_model env name model (assocGetPT mpt name) module_aliases with
    | none => none
    | some (r, s) => writeModelsLoop env rest mpt module_aliases (rt ++ r) (st ++ s)

/-- Embedding of `codegen.write_field_paths`: aggregate imports and path
types over the whole registry, build the alias map, then emit headers
and per-model sections into the two files (returned as chunk lists). -/
def write_field_paths (env : Env) (models : List (String × ModelDecl)) :
    Option (List String × List String) :=
  match aggregateModels env models [] [] [] with
  | none => none
  | some (all_imports, model_path_types, model_imports) =>
    writeModelsLoop env models model_path_types (_build_module_aliases all_imports)
      (runtimeHeaderChunks model_imports)
      (stubHeaderChunks all_imports (_build_module_aliases all_imports))

/-- Outcome of one `generate` invocation of the CLI: either a refusal
(message to stderr, exit code 1, nothing written) or the two written
files. -/
inductive GenResult where
  | error (msg : String)
  | written (runtime stub : List String)
deriving DecidableEq

/-- Embedding of `cli.generate`'s decision logic: an empty registry is
refused before anything is generated or written; otherwise both files
are produced by `write_field_paths`.  (The `none` fallback is the fuel
artifact of the embedding, unreachable for declared registries.) -/
def generate (env : Env) (registry : List (String × ModelDecl)) : GenResult :=
  if registry.isEmpty then
    GenResult.error "ERROR: No MongoCollectionModel subclasses found in sources"
  else
    match write_field_paths env registry with
    | some (rt, st) => GenResult.written rt st
    | none => GenResult.error "traversal fuel exhausted"

/-- The n-fold `list` wrapper `List^n(T)` used to state the query-value
rendering claim. -/
def iterList : Nat → Ann → Ann
  | 0, a => a
  | Nat.succ k, a => Ann.listOf [iterList k a]

/-- Strips the transparent `TypeAliasType`/`Annotated` wrappers that both
renderers unwrap before dispatching. -/
def unwrapAnn : Ann → Ann
  | .aliasTy v => unwrapAnn v
  | .annotated x => unwrapAnn x
  | a => a

/-- Whether an annotation is a `list` with a type argument, the one
shape whose query-value rendering differs from the exact rendering. -/
def isExpList : Ann → Bool
  | .listOf (_ :: _) => true
  | _ => false

/-- Count of declared classes not yet on the ancestor chain: the
decreasing measure of the traversal. -/
def modelsLeft (env : Env) (seen : List Nat) : Nat :=
  (env.filter (fun d => d.info.mid ∉ seen)).length

/-- A model whose field annotations only mention declared classes.  Any
real schema satisfies this: in Python every class object reachable from
an annotation exists together with its fields. -/
def ClosedModel (env : Env) (m : ModelDecl) : Prop :=
  ∀ f ∈ m.fields, ∀ n ∈ _extract_base_models f.ann, (lookupDecl env n.mid).isSome

/-- An environment all of whose declarations are closed. -/
def ClosedEnv (env : Env) : Prop := ∀ d ∈ env, ClosedModel env d

/-- Every field of every declared model resolves to a nonempty wire
alias (true of every Pydantic schema: names and aliases are nonempty
identifiers). -/
def NoEmptyAliases (env : Env) : Prop :=
  ∀ d ∈ env, ∀ f ∈ d.fields, _resolve_alias d f ≠ ""

/-- Self-referential example model `N { s: str, child: N }`. -/
def exNCls : ClsInfo := ⟨1, "app.models", "N", true⟩

/-- Declaration of the self-referential model `N`. -/
def exNDecl : ModelDecl := ⟨exNCls, none,
  [⟨"s", none, none, Ann.builtin "str"⟩,
   ⟨"child", none, none, Ann.cls exNCls⟩]⟩

/-- Example model `R2 { a: N, b: N }` with two sibling fields of the
same nested type. -/
def exR2Decl : ModelDecl := ⟨⟨2, "app.models", "R2", true⟩, none,
  [⟨"a", none, none, Ann.cls exNCls⟩,
   ⟨"b", none, none, Ann.cls exNCls⟩]⟩

/-- Example model `R3 { f: N }` whose nested model is self-referential. -/
def exR3Decl : ModelDecl := ⟨⟨3, "app.models", "R3", true⟩, none,
  [⟨"f", none, none, Ann.cls exNCls⟩]⟩

/-- Environment declaring the example models. -/
def exEnv : Env := [exNDecl, exR2Decl, exR3Decl]

/-- Example model whose declaration order (`z` before `a`) differs from
sorted order. -/
def exZADecl : ModelDecl := ⟨⟨4, "app.models", "ZA", true⟩, none,
  [⟨"z", none, none, Ann.builtin "int"⟩,
   ⟨"a", none, none, Ann.builtin "str"⟩]⟩

/-- Example model with a free-form `dict[str, Any]` field next to an
ordinary one. -/
def exMetaDecl : ModelDecl := ⟨⟨5, "app.models", "Meta", true⟩, none,
  [⟨"meta", none, none, Ann.dictOf [Ann.builtin "str", Ann.anyTy]⟩,
   ⟨"age", none, none, Ann.builtin "int"⟩]⟩

/-- Example model exercising all four alias-resolution tiers. -/
def exAliasDecl : ModelDecl := ⟨⟨6, "app.models", "Al", true⟩, some (fun s => s ++ "X"),
  [⟨"f1", some "wire", some (VAlias.str "va"), Ann.builtin "int"⟩,
   ⟨"f2", none, some (VAlias.str "va"), Ann.builtin "int"⟩,
   ⟨"f3", none, some VAlias.nonStr, Ann.builtin "int"⟩,
   ⟨"f4", none, none, Ann.builtin "int"⟩]⟩

/-- Variant environment that redeclares the self-referential class id 1
with no fields; used to witness that a class on the ancestor chain is
never consulted again on that branch. -/
def exEnvAlt : Env := [⟨exNCls, none, []⟩, exR2Decl, exR3Decl]

/-! ## General lemmas about the helper operations -/

theorem mem_setAdd {s : List String} {x y : String} : y ∈ setAdd s x ↔ y ∈ s ∨ y = x := by
  unfold setAdd
  split
  · rename_i h
    constructor
    · exact Or.inl
    · rintro (hy | rfl)
      · exact hy
      · exact h
  · simp

theorem setAdd_nodup {s : List String} {x : String} (h : s.Nodup) : (setAdd s x).Nodup := by
  unfold setAdd
  split
  · exact h
  · rename_i hx
    rw [List.nodup_append]
    refine ⟨h, List.nodup_singleton x, ?_⟩
    intro a ha hax
    rw [List.mem_singleton] at hax
    exact hx (hax ▸ ha)

theorem sortedStrings_perm (l : List String) : (sortedStrings l).Perm l :=
  List.perm_insertionSort _ l

theorem mem_sortedStrings {l : List String} {x : String} : x ∈ sortedStrings l ↔ x ∈ l :=
  (sortedStrings_perm l).mem_iff

theorem sortedStrings_nodup {l : List String} (h : l.Nodup) : (sortedStrings l).Nodup :=
  ((sortedStrings_perm l).nodup_iff).mpr h

theorem chLeB_total : ∀ a b, chLeB a b = true ∨ chLeB b a = true := by
  intro a
  induction a with
  | nil => intro b; left; rfl
  | cons x xs ih =>
    intro b
    cases b with
    | nil => right; rfl
    | cons y ys =>
      rcases Nat.lt_trichotomy x.toNat y.toNat with h | h | h
      · left; simp [chLeB, h]
      · rcases ih ys with h2 | h2
        · left; simp [chLeB, h, Nat.lt_irrefl, h2]
        · right; simp [chLeB, h.symm, Nat.lt_irrefl, h2]
      · right; simp [chLeB, h]

theorem chLeB_trans : ∀ a b c, chLeB a b = true → chLeB b c = true → chLeB a c = true := by
  intro a
  induction a with
  | nil => intro b c _ _; rfl
  | cons x xs ih =>
    intro b c hab hbc
    cases b with
    | nil => simp [chLeB] at hab
    | cons y ys =>
      cases c with
      | nil => simp [chLeB] at hbc
      | cons z zs =>
        rcases Nat.lt_trichotomy x.toNat y.toNat with hxy | hxy | hxy
        · rcases Nat.lt_trichotomy y.toNat z.toNat with hyz | hyz | hyz
          · simp [chLeB, Nat.lt_trans hxy hyz]
          · simp [chLeB, hyz ▸ hxy]
          · have h1 : ¬ y.toNat < z.toNat := Nat.lt_asymm hyz
            simp [chLeB, h1, hyz] at hbc
        · rcases Nat.lt_trichotomy y.toNat z.toNat with hyz | hyz | hyz
          · simp [chLeB, hxy ▸ hyz]
          · have hab2 : chLeB xs ys = true := by
              simpa [chLeB, hxy, Nat.lt_irrefl] using hab
            have hbc2 : chLeB ys zs = true := by
              simpa [chLeB, hyz, Nat.lt_irrefl] using hbc
            have hxz : x.toNat = z.toNat := hxy.trans hyz
            simp [chLeB, hxz, Nat.lt_irrefl]
            exact ih ys zs hab2 hbc2
          · have h1 : ¬ y.toNat < z.toNat := Nat.lt_asymm hyz
            simp [chLeB, h1, hyz] at hbc
        · have h1 : ¬ x.toNat < y.toNat := Nat.lt_asymm hxy
          simp [chLeB, h1, hxy] at hab

theorem strLeB_total : ∀ a b : String, strLeB a b = true ∨ strLeB b a = true := by
  intro a b; exact chLeB_total a.data b.data

theorem strLeB_trans : ∀ a b c : String, strLeB a b = true → strLeB b c = true → strLeB a c = true := by
  intro a b c; exact chLeB_trans a.data b.data c.data

theorem sortedStrings_sorted (l : List String) :
    List.Pairwise (fun a b => strLeB a b = true) (sortedStrings l) := by
  haveI : IsTotal String (fun a b => strLeB a b = true) := ⟨strLeB_total⟩
  haveI : IsTrans String (fun a b => strLeB a b = true) := ⟨strLeB_trans⟩
  exact List.sorted_insertionSort _ l

/-! ## C7: alias resolution precedence -/

/-- C7: for every model and field, alias resolution returns, first match
wins: the explicit serialization alias; else the explicit validation
alias when it is a plain string; else the model-wide alias generator
applied to the declared name; else the declared name.  In particular an
explicit alias beats the generator, and resolution is total. -/
theorem C7_alias_resolution_precedence (m : ModelDecl) (f : FieldInfo) :
    (∀ a, f.serialization_alias = some a → _resolve_alias m f = a)
    ∧ (∀ a, f.serialization_alias = none → f.validation_alias = some (VAlias.str a) →
        _resolve_alias m f = a)
    ∧ (∀ gen, f.serialization_alias = none →
        (∀ a, f.validation_alias ≠ some (VAlias.str a)) →
        m.alias_generator = some gen → _resolve_alias m f = gen f.name)
    ∧ (f.serialization_alias = none →
        (∀ a, f.validation_alias ≠ some (VAlias.str a)) →
        m.alias_generator = none → _resolve_alias m f = f.name) := by
  refine ⟨?_, ?_, ?_, ?_⟩
  · intro a h; simp [_resolve_alias, h]
  · intro a h1 h2; simp [_resolve_alias, h1, h2]
  · intro gen h1 h2 h3
    unfold _resolve_alias
    rw [h1, h3]
    rcases hv : f.validation_alias with _ | v
    · rfl
    · cases v with
      | str a => exact absurd hv (h2 a)
      | nonStr => rfl
  · intro h1 h2 h3
    unfold _resolve_alias
    rw [h1, h3]
    rcases hv : f.validation_alias with _ | v
    · rfl
    · cases v with
      | str a => exact absurd hv (h2 a)
      | nonStr => rfl

/-- Witness for C7: on the example model, the field with an explicit
serialization alias resolves to it even though a model-wide generator
and a validation alias are present. -/
theorem C7_witness :
    _resolve_alias exAliasDecl ⟨"f1", some "wire", some (VAlias.str "va"), Ann.builtin "int"⟩ = "wire" :=
  (C7_alias_resolution_precedence exAliasDecl _).1 "wire" rfl

/-! ## C3: empty registry refused -/

/-- C3: invoking generation with an empty registry is refused with the
configuration error (printed to stderr, exit 1) and no output is
produced; the write path is never reached. -/
theorem C3_empty_registry_refused (env : Env) :
    generate env [] = GenResult.error "ERROR: No MongoCollectionModel subclasses found in sources"
    ∧ ∀ rt st, generate env [] ≠ GenResult.written rt st := by
  constructor
  · rfl
  · intro rt st h
    simp [generate] at h

/-- Witness for C3 at the empty environment. -/
theorem C3_witness :
    generate [] [] = GenResult.error "ERROR: No MongoCollectionModel subclasses found in sources" :=
  (C3_empty_registry_refused []).1

/-! ## C2: query-value rendering -/

theorem intercalate_go_append_one (sep x acc : String) :
    ∀ xs : List String,
      String.intercalate.go acc sep (xs ++ [x]) = String.intercalate.go acc sep xs ++ sep ++ x := by
  intro xs
  induction xs generalizing acc with
  | nil => rfl
  | cons y ys ih =>
    show String.intercalate.go (acc ++ sep ++ y) sep (ys ++ [x]) = _
    rw [ih]
    rfl

theorem intercalate_append_one (sep x : String) (xs : List String) (h : xs ≠ []) :
    String.intercalate sep (xs ++ [x]) = String.intercalate sep xs ++ sep ++ x := by
  cases xs with
  | nil => exact absurd rfl h
  | cons a as =>
    show String.intercalate.go a sep (as ++ [x]) = _
    rw [intercalate_go_append_one]
    rfl

theorem intercalate_singleton (sep x : String) : String.intercalate sep [x] = x := rfl

theorem qv_eq_src_of_not_list (aliases : List (String × String)) :
    ∀ a : Ann, isExpList (unwrapAnn a) = false →
      _query_value_type_src aliases a = _annotation_to_source aliases a
  | Ann.noneType, _ => rfl
  | Ann.builtin _, _ => rfl
  | Ann.cls _, _ => rfl
  | Ann.listOf [], _ => rfl
  | Ann.listOf (_ :: _), h => by simp [unwrapAnn, isExpList] at h
  | Ann.dictOf _, _ => rfl
  | Ann.unionOf _, _ => rfl
  | Ann.lit _, _ => rfl
  | Ann.anyTy, _ => rfl
  | Ann.other _, _ => rfl
  | Ann.aliasTy v, h => by
    have ih := qv_eq_src_of_not_list aliases v (by simpa [unwrapAnn] using h)
    simp [_query_value_type_src, _annotation_to_source, ih]
  | Ann.annotated x, h => by
    have ih := qv_eq_src_of_not_list aliases x (by simpa [unwrapAnn] using h)
    simp [_query_value_type_src, _annotation_to_source, ih]

theorem qv_iterList (aliases : List (String × String)) (T : Ann)
    (hT : isExpList (unwrapAnn T) = false) :
    ∀ n, _query_value_type_src aliases (iterList n T) =
      String.intercalate " | "
        ((List.range (n + 1)).map (fun k => _annotation_to_source aliases (iterList k T))) := by
  intro n
  induction n with
  | zero =>
    have hr := List.range_succ 0
    rw [hr, List.range_zero, List.nil_append, List.map_singleton, intercalate_singleton]
    exact qv_eq_src_of_not_list aliases T hT
  | succ n ih =>
    have hr := List.range_succ (n + 1)
    rw [hr, List.map_append, List.map_singleton]
    have hne : List.map (fun k => _annotation_to_source aliases (iterList k T)) (List.range (n + 1)) ≠ [] := by
      simp [List.range_eq_nil]
    rw [intercalate_append_one _ _ _ hne, ← ih]
    rfl

/-- C2: for a field typed as an n-deep list tower `List^n(T)` (T itself
not a list), the query-value rendering is the pipe-joined union of the
exact renderings of `T, List(T), …, List^n(T)` in increasing depth
order; for a field of any other shape the query-value rendering equals
the exact rendering. -/
theorem C2_query_value_rendering :
    (∀ (aliases : List (String × String)) (T : Ann), isExpList (unwrapAnn T) = false →
      ∀ n, _query_value_type_src aliases (iterList n T) =
        String.intercalate " | "
          ((List.range (n + 1)).map (fun k => _annotation_to_source aliases (iterList k T))))
    ∧ (∀ (aliases : List (String × String)) (a : Ann), isExpList (unwrapAnn a) = false →
      _query_value_type_src aliases a = _annotation_to_source aliases a) :=
  ⟨fun aliases T hT n => qv_iterList aliases T hT n,
   fun aliases a h => qv_eq_src_of_not_list aliases a h⟩

/-- Witness for C2: the spec's own example, `List(List(List(string)))`,
renders as the four-way union in increasing depth order. -/
theorem C2_witness :
    isExpList (unwrapAnn (Ann.builtin "str")) = false
    ∧ _query_value_type_src [] (iterList 3 (Ann.builtin "str")) =
        String.intercalate " | "
          ((List.range 4).map (fun k => _annotation_to_source [] (iterList k (Ann.builtin "str"))))
    ∧ _query_value_type_src [] (iterList 3 (Ann.builtin "str")) =
        "str | list[str] | list[list[str]] | list[list[list[str]]]" :=
  ⟨by decide, C2_query_value_rendering.1 [] (Ann.builtin "str") (by decide) 3, by decide⟩

/-! ## C10: models with no nested records -/

theorem walkFields_no_nested (rec : ModelDecl → String → List String → List Nat → Option (List String))
    (env : Env) (m : ModelDecl) :
    ∀ fs pre paths seen, (∀ f ∈ fs, _extract_base_models f.ann = []) →
      _walkFields rec env m fs pre paths seen =
        some (fs.foldl (fun ps f => setAdd ps (joinPath pre (_resolve_alias m f))) paths) := by
  intro fs
  induction fs with
  | nil => intro pre paths seen _; rfl
  | cons f rest ih =>
    intro pre paths seen h
    have hf := h f (List.mem_cons_self f rest)
    simp only [_walkFields, hf, _walkNested, List.foldl_cons]
    exact ih pre _ seen (fun g hg => h g (List.mem_cons_of_mem f hg))

theorem mem_foldl_setAdd (g : FieldInfo → String) :
    ∀ (fs : List FieldInfo) (init : List String) (x : String),
      x ∈ fs.foldl (fun ps f => setAdd ps (g f)) init ↔ x ∈ init ∨ x ∈ fs.map g := by
  intro fs
  induction fs with
  | nil => simp
  | cons f rest ih =>
    intro init x
    simp only [List.foldl_cons, List.map_cons, List.mem_cons]
    rw [ih, mem_setAdd]
    tauto

theorem nodup_foldl_setAdd (g : FieldInfo → String) :
    ∀ (fs : List FieldInfo) (init : List String), init.Nodup →
      (fs.foldl (fun ps f => setAdd ps (g f)) init).Nodup := by
  intro fs
  induction fs with
  | nil => intro init h; exact h
  | cons f rest ih =>
    intro init h
    exact ih _ (setAdd_nodup h)

/-- C10: for a model none of whose field annotations contains a nested
record, the path walk returns exactly the set of alias-resolved field
names, with no duplicates and nothing else. -/
theorem C10_flat_model_paths (env : Env) (m : ModelDecl)
    (h : ∀ f ∈ m.fields, _extract_base_models f.ann = []) :
    ∃ r, collect_field_paths env m = some r ∧ r.Nodup ∧
      (∀ x, x ∈ r ↔ x ∈ m.fields.map (_resolve_alias m)) := by
  have hw : _walk env (walkFuel env) m "" [] [] =
      some (m.fields.foldl (fun ps f => setAdd ps (joinPath "" (_resolve_alias m f))) []) := by
    show _walkFields (_walk env env.length) env m m.fields "" [] [] = _
    exact walkFields_no_nested _ env m m.fields "" [] [] h
  refine ⟨sortedStrings (m.fields.foldl (fun ps f => setAdd ps (joinPath "" (_resolve_alias m f))) []),
    ?_, ?_, ?_⟩
  · unfold collect_field_paths
    rw [hw]
    rfl
  · exact sortedStrings_nodup (nodup_foldl_setAdd _ _ _ List.nodup_nil)
  · intro x
    rw [mem_sortedStrings, mem_foldl_setAdd]
    simp [joinPath]

/-- Witness for C10 on the four-field flat example model. -/
theorem C10_witness :
    (∀ f ∈ exAliasDecl.fields, _extract_base_models f.ann = [])
    ∧ ∃ r, collect_field_paths [exAliasDecl] exAliasDecl = some r ∧ r.Nodup ∧
        (∀ x, x ∈ r ↔ x ∈ exAliasDecl.fields.map (_resolve_alias exAliasDecl)) :=
  ⟨by decide, C10_flat_model_paths [exAliasDecl] exAliasDecl (by decide)⟩

/-! ## C8/C9: the two walkers traverse the same paths -/

theorem dictInsert_keys (d : List (String × Ann)) (k : String) (v : Ann) :
    (dictInsert d k v).map Prod.fst = setAdd (d.map Prod.fst) k := by
  unfold dictInsert setAdd
  by_cases h : d.any (fun p => p.1 = k)
  · have hmem : k ∈ d.map Prod.fst := by
      rcases List.any_eq_true.mp h with ⟨p, hp, he⟩
      simp only [decide_eq_true_eq] at he
      exact List.mem_map.mpr ⟨p, hp, he⟩
    rw [if_pos h, if_pos hmem, List.map_map]
    refine List.map_congr_left ?_
    intro p _
    by_cases hp : p.1 = k <;> simp [hp]
  · have hmem : k ∉ d.map Prod.fst := by
      intro hk
      rcases List.mem_map.mp hk with ⟨p, hp, he⟩
      exact h (List.any_eq_true.mpr ⟨p, hp, by simp [he]⟩)
    rw [if_neg h, if_neg hmem, List.map_append]
    rfl

theorem walkNested_keys
    (recT : ModelDecl → String → List (String × Ann) → List Nat → Option (List (String × Ann)))
    (recP : ModelDecl → String → List String → List Nat → Option (List String))
    (env : Env)
    (hrec : ∀ d full dacc seen,
      (recT d full dacc seen).map (List.map Prod.fst) = recP d full (dacc.map Prod.fst) seen) :
    ∀ ns full dacc seen,
      (_walkNested recT env ns full dacc seen).map (List.map Prod.fst) =
        _walkNested recP env ns full (dacc.map Prod.fst) seen := by
  intro ns
  induction ns with
  | nil => intro full dacc seen; rfl
  | cons n rest ih =>
    intro full dacc seen
    simp only [_walkNested]
    by_cases h : n.mid ∈ seen
    · rw [if_pos h, if_pos h]
      exact ih full dacc seen
    · rw [if_neg h, if_neg h]
      have hr := hrec (declOf env n) full dacc (n.mid :: seen)
      cases e : recT (declOf env n) full dacc (n.mid :: seen) with
      | none =>
        rw [e] at hr
        simp only [Option.map_none'] at hr
        rw [← hr]
        rfl
      | some d2 =>
        rw [e] at hr
        simp only [Option.map_some'] at hr
        rw [← hr]
        exact ih full d2 seen

theorem walkTypedFields_keys
    (recT : ModelDecl → String → List (String × Ann) → List Nat → Option (List (String × Ann)))
    (recP : ModelDecl → String → List String → List Nat → Option (List String))
    (env : Env) (m : ModelDecl)
    (hrec : ∀ d full dacc seen,
      (recT d full dacc seen).map (List.map Prod.fst) = recP d full (dacc.map Prod.fst) seen) :
    ∀ fs pre dacc seen,
      (_walkTypedFields recT env m fs pre dacc seen).map (List.map Prod.fst) =
        _walkFields recP env m fs pre (dacc.map Prod.fst) seen := by
  intro fs
  induction fs with
  | nil => intro pre dacc seen; rfl
  | cons f rest ih =>
    intro pre dacc seen
    simp only [_walkTypedFields, _walkFields]
    have hk := walkNested_keys recT recP env hrec (_extract_base_models f.ann)
      (joinPath pre (_resolve_alias m f)) (dictInsert dacc (joinPath pre (_resolve_alias m f)) f.ann) seen
    rw [dictInsert_keys] at hk
    cases e : _walkNested recT env (_extract_base_models f.ann)
        (joinPath pre (_resolve_alias m f))
        (dictInsert dacc (joinPath pre (_resolve_alias m f)) f.ann) seen with
    | none =>
      rw [e] at hk
      simp only [Option.map_none'] at hk
      rw [← hk]
      rfl
    | some d2 =>
      rw [e] at hk
      simp only [Option.map_some'] at hk
      rw [← hk]
      exact ih pre d2 seen

theorem walk_with_types_keys (env : Env) :
    ∀ fuel m pre dacc seen,
      (_walk_with_types env fuel m pre dacc seen).map (List.map Prod.fst) =
        _walk env fuel m pre (dacc.map Prod.fst) seen := by
  intro fuel
  induction fuel with
  | zero => intro m pre dacc seen; rfl
  | succ fuel ih =>
    intro m pre dacc seen
    show (_walkTypedFields (_walk_with_types env fuel) env m m.fields pre dacc seen).map (List.map Prod.fst) =
      _walkFields (_walk env fuel) env m m.fields pre (dacc.map Prod.fst) seen
    exact walkTypedFields_keys _ _ env m (fun d full a s => ih d full a s) m.fields pre dacc seen

/-- C8: for every environment and root model, the sorted key set of the
typed walker's path → annotation map is exactly the output of the
path-only walker, so the runtime and stub artifacts generated from the
two traversals describe the same models and paths. -/
theorem C8_walkers_agree_on_paths :
    ∀ (env : Env) (m : ModelDecl),
      (collect_field_path_types env m).map (fun d => sortedStrings (d.map Prod.fst)) =
        collect_field_paths env m := by
  intro env m
  unfold collect_field_path_types collect_field_paths
  have h := walk_with_types_keys env (walkFuel env) m "" [] []
  simp only [List.map_nil] at h
  cases e : _walk_with_types env (walkFuel env) m "" [] [] with
  | none =>
    rw [e] at h
    simp only [Option.map_none'] at h
    rw [← h]
    rfl
  | some d =>
    rw [e] at h
    simp only [Option.map_some'] at h
    rw [← h]
    rfl

/-- C9: the path-only walker returns a lexicographically sorted list,
while the typed walker returns its dict exactly in traversal insertion
order (the un-sorted path sequence of the walk); the example model with
declaration order `z`, `a` shows the typed keys are not re-sorted. -/
theorem C9_result_ordering :
    (∀ (env : Env) (m : ModelDecl) (r : List String),
      collect_field_paths env m = some r → List.Pairwise (fun a b => strLeB a b = true) r)
    ∧ (∀ (env : Env) (m : ModelDecl),
      (collect_field_path_types env m).map (List.map Prod.fst) = _walk env (walkFuel env) m "" [] [])
    ∧ (collect_field_path_types [exZADecl] exZADecl).map (List.map Prod.fst) = some ["z", "a"]
    ∧ collect_field_paths [exZADecl] exZADecl = some ["a", "z"] := by
  refine ⟨?_, ?_, by decide, by decide⟩
  · intro env m r h
    unfold collect_field_paths at h
    cases e : _walk env (walkFuel env) m "" [] [] with
    | none => rw [e] at h; simp at h
    | some l =>
      rw [e] at h
      simp only [Option.map_some'] at h
      rw [← Option.some.inj h]
      exact sortedStrings_sorted l
  · intro env m
    have h := walk_with_types_keys env (walkFuel env) m "" [] []
    simpa using h

/-- Witness for C9: the sortedness conclusion applied at the example
model. -/
theorem C9_witness : List.Pairwise (fun a b => strLeB a b = true) ["a", "z"] :=
  C9_result_ordering.1 [exZADecl] exZADecl ["a", "z"] (by decide)

/-! ## C1: termination and the branch-local ancestor set -/

theorem filter_length_mono {α : Type} (p q : α → Bool) :
    ∀ l : List α, (∀ a ∈ l, q a = true → p a = true) →
      (l.filter q).length ≤ (l.filter p).length := by
  intro l
  induction l with
  | nil => intro _; exact Nat.le_refl 0
  | cons e rest ih =>
    intro h
    have hrest := ih (fun a ha => h a (List.mem_cons_of_mem e ha))
    simp only [List.filter_cons]
    cases hq : q e with
    | false =>
      cases hp : p e with
      | false => simpa using hrest
      | true => simp only [hp, if_true, hq, if_false, cond_true, cond_false]; exact Nat.le_succ_of_le hrest
    | true =>
      have hp := h e (List.mem_cons_self e rest) hq
      simp only [hp, hq, cond_true]
      exact Nat.succ_le_succ hrest

theorem filter_length_lt {α : Type} (p q : α → Bool) :
    ∀ (l : List α) (x : α), (∀ a ∈ l, q a = true → p a = true) →
      x ∈ l → p x = true → q x = false →
      (l.filter q).length < (l.filter p).length := by
  intro l
  induction l with
  | nil => intro x _ hx; cases hx
  | cons e rest ih =>
    intro x h hx hpx hqx
    simp only [List.filter_cons]
    rcases List.mem_cons.mp hx with rfl | hx'
    · rw [hqx, hpx]
      simp only [cond_false, cond_true]
      exact Nat.lt_succ_of_le (filter_length_mono p q rest (fun a ha => h a (List.mem_cons_of_mem _ ha)))
    · have hrest := ih x (fun a ha => h a (List.mem_cons_of_mem e ha)) hx' hpx hqx
      cases hq : q e with
      | false =>
        cases hp : p e with
        | false => simpa using hrest
        | true => simp only [hp, hq, cond_true, cond_false]; exact Nat.lt_succ_of_lt hrest
      | true =>
        have hp := h e (List.mem_cons_self e rest) hq
        simp only [hp, hq, cond_true]
        exact Nat.succ_lt_succ hrest

theorem modelsLeft_cons_le (env : Env) (seen : List Nat) (mid : Nat) :
    modelsLeft env (mid :: seen) ≤ modelsLeft env seen := by
  unfold modelsLeft
  refine filter_length_mono _ _ env ?_
  intro d _ hq
  simp only [decide_eq_true_eq] at hq ⊢
  intro hmem
  exact hq (List.mem_cons_of_mem mid hmem)

theorem modelsLeft_cons_lt (env : Env) (seen : List Nat) (mid : Nat)
    (hd : (lookupDecl env mid).isSome) (hseen : mid ∉ seen) :
    modelsLeft env (mid :: seen) < modelsLeft env seen := by
  obtain ⟨d, hfind⟩ := Option.isSome_iff_exists.mp hd
  have hdm : d ∈ env := List.mem_of_find?_eq_some hfind
  have hdmid : d.info.mid = mid := by simpa using List.find?_some hfind
  unfold modelsLeft
  refine filter_length_lt _ _ env d ?_ hdm ?_ ?_
  · intro a _ hq
    simp only [decide_eq_true_eq] at hq ⊢
    intro hmem
    exact hq (List.mem_cons_of_mem mid hmem)
  · simpa [hdmid] using hseen
  · simp [hdmid]

theorem modelsLeft_nil (env : Env) : modelsLeft env [] = env.length := by
  unfold modelsLeft
  have : env.filter (fun d => decide (d.info.mid ∉ ([] : List Nat))) = env :=
    List.filter_eq_self.mpr (by simp)
  rw [this]

theorem walkNested_terminates
    (rec : ModelDecl → String → List String → List Nat → Option (List String))
    (env : Env) (fuel : Nat) (hce : ClosedEnv env)
    (hrec : ∀ d pre acc seen, ClosedModel env d → modelsLeft env seen < fuel →
      (rec d pre acc seen).isSome) :
    ∀ ns full acc seen, (∀ n ∈ ns, (lookupDecl env n.mid).isSome) →
      modelsLeft env seen ≤ fuel → (_walkNested rec env ns full acc seen).isSome := by
  intro ns
  induction ns with
  | nil => intro full acc seen _ _; simp [_walkNested]
  | cons n rest ih =>
    intro full acc seen hns hml
    simp only [_walkNested]
    by_cases h : n.mid ∈ seen
    · rw [if_pos h]
      exact ih full acc seen (fun x hx => hns x (List.mem_cons_of_mem n hx)) hml
    · rw [if_neg h]
      have hlk := hns n (List.mem_cons_self n rest)
      obtain ⟨d, hfind⟩ := Option.isSome_iff_exists.mp hlk
      have hdecl : declOf env n = d := by simp [declOf, lookupDecl] at hfind ⊢; rw [hfind]; rfl
      have hdm : d ∈ env := List.mem_of_find?_eq_some hfind
      have hlt : modelsLeft env (n.mid :: seen) < fuel :=
        Nat.lt_of_lt_of_le (modelsLeft_cons_lt env seen n.mid hlk h) hml
      have hsome := hrec d full acc (n.mid :: seen) (hce d hdm) hlt
      obtain ⟨acc2, hacc2⟩ := Option.isSome_iff_exists.mp hsome
      rw [hdecl, hacc2]
      exact ih full acc2 seen (fun x hx => hns x (List.mem_cons_of_mem n hx)) hml

theorem walkFields_terminates
    (rec : ModelDecl → String → List String → List Nat → Option (List String))
    (env : Env) (m : ModelDecl) (fuel : Nat) (hce : ClosedEnv env)
    (hrec : ∀ d pre acc seen, ClosedModel env d → modelsLeft env seen < fuel →
      (rec d pre acc seen).isSome) :
    ∀ fs pre acc seen,
      (∀ f ∈ fs, ∀ n ∈ _extract_base_models f.ann, (lookupDecl env n.mid).isSome) →
      modelsLeft env seen ≤ fuel → (_walkFields rec env m fs pre acc seen).isSome := by
  intro fs
  induction fs with
  | nil => intro pre acc seen _ _; simp [_walkFields]
  | cons f rest ih =>
    intro pre acc seen hfs hml
    simp only [_walkFields]
    have hn := walkNested_terminates rec env fuel hce hrec (_extract_base_models f.ann)
      (joinPath pre (_resolve_alias m f)) (setAdd acc (joinPath pre (_resolve_alias m f))) seen
      (hfs f (List.mem_cons_self f rest)) hml
    obtain ⟨acc2, hacc2⟩ := Option.isSome_iff_exists.mp hn
    rw [hacc2]
    exact ih pre acc2 seen (fun g hg => hfs g (List.mem_cons_of_mem f hg)) hml

theorem walk_terminates (env : Env) (hce : ClosedEnv env) :
    ∀ fuel m pre acc seen, ClosedModel env m → modelsLeft env seen < fuel →
      (_walk env fuel m pre acc seen).isSome := by
  intro fuel
  induction fuel with
  | zero => intro m pre acc seen _ h; exact absurd h (Nat.not_lt_zero _)
  | succ fuel ih =>
    intro m pre acc seen hm hml
    show (_walkFields (_walk env fuel) env m m.fields pre acc seen).isSome
    exact walkFields_terminates (_walk env fuel) env m fuel hce
      (fun d p a s hd hl => ih d p a s hd hl) m.fields pre acc seen hm (Nat.lt_succ_iff.mp hml)

theorem collect_field_paths_isSome (env : Env) (m : ModelDecl)
    (hce : ClosedEnv env) (hm : ClosedModel env m) :
    (collect_field_paths env m).isSome := by
  unfold collect_field_paths
  have h := walk_terminates env hce (walkFuel env) m "" [] [] hm
    (by rw [modelsLeft_nil]; exact Nat.lt_succ_self _)
  obtain ⟨r, hr⟩ := Option.isSome_iff_exists.mp h
  rw [hr]
  rfl

theorem walkNested_env_agnostic
    (rec1 rec2 : ModelDecl → String → List String → List Nat → Option (List String))
    (env env2 : Env)
    (hrec : ∀ d pre acc seen2, (∀ mid, mid ∉ seen2 → lookupDecl env mid = lookupDecl env2 mid) →
      rec1 d pre acc seen2 = rec2 d pre acc seen2) :
    ∀ ns full acc seen, (∀ mid, mid ∉ seen → lookupDecl env mid = lookupDecl env2 mid) →
      _walkNested rec1 env ns full acc seen = _walkNested rec2 env2 ns full acc seen := by
  intro ns
  induction ns with
  | nil => intro full acc seen _; rfl
  | cons n rest ih =>
    intro full acc seen hagree
    simp only [_walkNested]
    by_cases h : n.mid ∈ seen
    · rw [if_pos h, if_pos h]
      exact ih full acc seen hagree
    · rw [if_neg h, if_neg h]
      have hdecl : declOf env n = declOf env2 n := by
        unfold declOf
        rw [hagree n.mid h]
      have hagree2 : ∀ mid, mid ∉ n.mid :: seen → lookupDecl env mid = lookupDecl env2 mid := by
        intro mid hmid
        exact hagree mid (fun hm => hmid (List.mem_cons_of_mem n.mid hm))
      rw [← hdecl, hrec (declOf env n) full acc (n.mid :: seen) hagree2]
      cases rec2 (declOf env n) full acc (n.mid :: seen) with
      | none => rfl
      | some acc2 => exact ih full acc2 seen hagree

theorem walkFields_env_agnostic
    (rec1 rec2 : ModelDecl → String → List String → List Nat → Option (List String))
    (env env2 : Env) (m : ModelDecl)
    (hrec : ∀ d pre acc seen2, (∀ mid, mid ∉ seen2 → lookupDecl env mid = lookupDecl env2 mid) →
      rec1 d pre acc seen2 = rec2 d pre acc seen2) :
    ∀ fs pre acc seen, (∀ mid, mid ∉ seen → lookupDecl env mid = lookupDecl env2 mid) →
      _walkFields rec1 env m fs pre acc seen = _walkFields rec2 env2 m fs pre acc seen := by
  intro fs
  induction fs with
  | nil => intro pre acc seen _; rfl
  | cons f rest ih =>
    intro pre acc seen hagree
    simp only [_walkFields]
    rw [walkNested_env_agnostic rec1 rec2 env env2 hrec (_extract_base_models f.ann)
      (joinPath pre (_resolve_alias m f)) (setAdd acc (joinPath pre (_resolve_alias m f))) seen hagree]
    cases _walkNested rec2 env2 (_extract_base_models f.ann)
        (joinPath pre (_resolve_alias m f))
        (setAdd acc (joinPath pre (_resolve_alias m f))) seen with
    | none => rfl
    | some acc2 => exact ih pre acc2 seen hagree

theorem walk_env_agnostic (env env2 : Env) :
    ∀ fuel m pre acc seen, (∀ mid, mid ∉ seen → lookupDecl env mid = lookupDecl env2 mid) →
      _walk env fuel m pre acc seen = _walk env2 fuel m pre acc seen := by
  intro fuel
  induction fuel with
  | zero => intro m pre acc seen _; rfl
  | succ fuel ih =>
    intro m pre acc seen hagree
    show _walkFields (_walk env fuel) env m m.fields pre acc seen =
      _walkFields (_walk env2 fuel) env2 m m.fields pre acc seen
    exact walkFields_env_agnostic _ _ env env2 m
      (fun d p a s2 hag => ih d p a s2 hag) m.fields pre acc seen hagree

/-- C1: the path walk terminates on every declared schema, including
self-referential ones (the canonical fuel is never exhausted); the walk
never consults a class already in the branch-local ancestor set (its
result is invariant under changing the declarations of such classes);
and on the examples, a self-referential model unrolls exactly once per
branch while two sibling fields of the same nested model are each
expanded fully and independently. -/
theorem C1_termination_and_ancestor_set :
    (∀ (env : Env) (m : ModelDecl), ClosedEnv env → ClosedModel env m →
      (collect_field_paths env m).isSome)
    ∧ (∀ (env env2 : Env) (fuel : Nat) (m : ModelDecl) (pre : String)
        (paths : List String) (seen : List Nat),
        (∀ mid, mid ∉ seen → lookupDecl env mid = lookupDecl env2 mid) →
        _walk env fuel m pre paths seen = _walk env2 fuel m pre paths seen)
    ∧ collect_field_paths exEnv exNDecl = some ["child", "child.child", "child.s", "s"]
    ∧ collect_field_paths exEnv exR2Decl = some ["a", "a.child", "a.s", "b", "b.child", "b.s"] := by
  refine ⟨?_, ?_, by decide, by decide⟩
  · intro env m hce hm
    exact collect_field_paths_isSome env m hce hm
  · intro env env2 fuel m pre paths seen hagree
    exact walk_env_agnostic env env2 fuel m pre paths seen hagree

/-- Witness for C1: the closedness hypotheses hold on the example
environment, so the walk of the self-referential model terminates; and
with class 1 on the ancestor set, replacing its declaration by a
fieldless one does not change the walk. -/
theorem C1_witness :
    (ClosedEnv exEnv ∧ ClosedModel exEnv exNDecl ∧ (collect_field_paths exEnv exNDecl).isSome)
    ∧ _walk exEnv 4 exR3Decl "" [] [1] = _walk exEnvAlt 4 exR3Decl "" [] [1] :=
  ⟨⟨by unfold ClosedEnv ClosedModel; decide, by unfold ClosedModel; decide,
    C1_termination_and_ancestor_set.1 exEnv exNDecl (by unfold ClosedEnv ClosedModel; decide)
      (by unfold ClosedModel; decide)⟩,
   C1_termination_and_ancestor_set.2.1 exEnv exEnvAlt 4 exR3Decl "" [] [1] (by
    intro mid hmid
    have h1 : ¬ (1 = mid) := by
      intro h
      exact hmid (by simp [← h])
    simp only [exEnv, exEnvAlt, lookupDecl, List.find?]
    simp [exNDecl, exNCls, h1])⟩

/-! ## Accumulator monotonicity, success congruence and fuel lemmas -/

theorem walkNested_mono
    (rec : ModelDecl → String → List String → List Nat → Option (List String)) (env : Env)
    (hrec : ∀ d full acc seen r, rec d full acc seen = some r → ∀ x ∈ acc, x ∈ r) :
    ∀ ns full acc seen r, _walkNested rec env ns full acc seen = some r → ∀ x ∈ acc, x ∈ r := by
  intro ns
  induction ns with
  | nil =>
    intro full acc seen r h x hx
    exact Option.some.inj h ▸ hx
  | cons n rest ih =>
    intro full acc seen r h x hx
    simp only [_walkNested] at h
    by_cases hm : n.mid ∈ seen
    · rw [if_pos hm] at h
      exact ih full acc seen r h x hx
    · rw [if_neg hm] at h
      cases e : rec (declOf env n) full acc (n.mid :: seen) with
      | none => rw [e] at h; cases h
      | some acc2 =>
        rw [e] at h
        exact ih full acc2 seen r h x (hrec _ _ _ _ _ e x hx)

theorem walkFields_mono
    (rec : ModelDecl → String → List String → List Nat → Option (List String))
    (env : Env) (m : ModelDecl)
    (hrec : ∀ d full acc seen r, rec d full acc seen = some r → ∀ x ∈ acc, x ∈ r) :
    ∀ fs pre acc seen r, _walkFields rec env m fs pre acc seen = some r → ∀ x ∈ acc, x ∈ r := by
  intro fs
  induction fs with
  | nil =>
    intro pre acc seen r h x hx
    exact Option.some.inj h ▸ hx
  | cons f rest ih =>
    intro pre acc seen r h x hx
    simp only [_walkFields] at h
    cases e : _walkNested rec env (_extract_base_models f.ann)
        (joinPath pre (_resolve_alias m f))
        (setAdd acc (joinPath pre (_resolve_alias m f))) seen with
    | none => rw [e] at h; cases h
    | some acc2 =>
      rw [e] at h
      have hx2 : x ∈ acc2 :=
        walkNested_mono rec env hrec _ _ _ _ _ e x (mem_setAdd.mpr (Or.inl hx))
      exact ih pre acc2 seen r h x hx2

theorem walk_mono (env : Env) :
    ∀ fuel m pre acc seen r, _walk env fuel m pre acc seen = some r → ∀ x ∈ acc, x ∈ r := by
  intro fuel
  induction fuel with
  | zero => intro m pre acc seen r h; cases h
  | succ fuel ih =>
    intro m pre acc seen r h
    exact walkFields_mono (_walk env fuel) env m
      (fun d fl a s r2 h2 => ih d fl a s r2 h2) m.fields pre acc seen r h

theorem walkNested_isSome_congr
    (rec : ModelDecl → String → List String → List Nat → Option (List String)) (env : Env)
    (hrec : ∀ d f1 a1 f2 a2 seen, (rec d f1 a1 seen).isSome = (rec d f2 a2 seen).isSome) :
    ∀ ns f1 a1 f2 a2 seen,
      (_walkNested rec env ns f1 a1 seen).isSome = (_walkNested rec env ns f2 a2 seen).isSome := by
  intro ns
  induction ns with
  | nil => intro f1 a1 f2 a2 seen; rfl
  | cons n rest ih =>
    intro f1 a1 f2 a2 seen
    simp only [_walkNested]
    by_cases hm : n.mid ∈ seen
    · rw [if_pos hm, if_pos hm]
      exact ih f1 a1 f2 a2 seen
    · rw [if_neg hm, if_neg hm]
      have h := hrec (declOf env n) f1 a1 f2 a2 (n.mid :: seen)
      cases e1 : rec (declOf env n) f1 a1 (n.mid :: seen) with
      | none =>
        rw [e1] at h
        cases e2 : rec (declOf env n) f2 a2 (n.mid :: seen) with
        | none => rfl
        | some b2 => rw [e2] at h; cases h
      | some b1 =>
        rw [e1] at h
        cases e2 : rec (declOf env n) f2 a2 (n.mid :: seen) with
        | none => rw [e2] at h; cases h
        | some b2 => exact ih f1 b1 f2 b2 seen

theorem walkFields_isSome_congr
    (rec : ModelDecl → String → List String → List Nat → Option (List String))
    (env : Env) (m : ModelDecl)
    (hrec : ∀ d f1 a1 f2 a2 seen, (rec d f1 a1 seen).isSome = (rec d f2 a2 seen).isSome) :
    ∀ fs p1 a1 p2 a2 seen,
      (_walkFields rec env m fs p1 a1 seen).isSome = (_walkFields rec env m fs p2 a2 seen).isSome := by
  intro fs
  induction fs with
  | nil => intro p1 a1 p2 a2 seen; rfl
  | cons f rest ih =>
    intro p1 a1 p2 a2 seen
    simp only [_walkFields]
    have h := walkNested_isSome_congr rec env hrec (_extract_base_models f.ann)
      (joinPath p1 (_resolve_alias m f)) (setAdd a1 (joinPath p1 (_resolve_alias m f)))
      (joinPath p2 (_resolve_alias m f)) (setAdd a2 (joinPath p2 (_resolve_alias m f))) seen
    cases e1 : _walkNested rec env (_extract_base_models f.ann)
        (joinPath p1 (_resolve_alias m f)) (setAdd a1 (joinPath p1 (_resolve_alias m f))) seen with
    | none =>
      rw [e1] at h
      cases e2 : _walkNested rec env (_extract_base_models f.ann)
          (joinPath p2 (_resolve_alias m f)) (setAdd a2 (joinPath p2 (_resolve_alias m f))) seen with
      | none => rfl
      | some b2 => rw [e2] at h; cases h
    | some b1 =>
      rw [e1] at h
      cases e2 : _walkNested rec env (_extract_base_models f.ann)
          (joinPath p2 (_resolve_alias m f)) (setAdd a2 (joinPath p2 (_resolve_alias m f))) seen with
      | none => rw [e2] at h; cases h
      | some b2 => exact ih p1 b1 p2 b2 seen

theorem walk_isSome_congr (env : Env) :
    ∀ fuel m p1 a1 p2 a2 seen,
      (_walk env fuel m p1 a1 seen).isSome = (_walk env fuel m p2 a2 seen).isSome := by
  intro fuel
  induction fuel with
  | zero => intro m p1 a1 p2 a2 seen; rfl
  | succ fuel ih =>
    intro m p1 a1 p2 a2 seen
    exact walkFields_isSome_congr (_walk env fuel) env m
      (fun d f1 b1 f2 b2 s => ih d f1 b1 f2 b2 s) m.fields p1 a1 p2 a2 seen

theorem walkNested_rec_mono
    (rec rec' : ModelDecl → String → List String → List Nat → Option (List String)) (env : Env)
    (hrec : ∀ d full acc seen r, rec d full acc seen = some r → rec' d full acc seen = some r) :
    ∀ ns full acc seen r, _walkNested rec env ns full acc seen = some r →
      _walkNested rec' env ns full acc seen = some r := by
  intro ns
  induction ns with
  | nil => intro full acc seen r h; exact h
  | cons n rest ih =>
    intro full acc seen r h
    simp only [_walkNested] at h ⊢
    by_cases hm : n.mid ∈ seen
    · rw [if_pos hm] at h ⊢
      exact ih full acc seen r h
    · rw [if_neg hm] at h ⊢
      cases e : rec (declOf env n) full acc (n.mid :: seen) with
      | none => rw [e] at h; cases h
      | some acc2 =>
        rw [e] at h
        rw [hrec _ _ _ _ _ e]
        exact ih full acc2 seen r h

theorem walkFields_rec_mono
    (rec rec' : ModelDecl → String → List String → List Nat → Option (List String))
    (env : Env) (m : ModelDecl)
    (hrec : ∀ d full acc seen r, rec d full acc seen = some r → rec' d full acc seen = some r) :
    ∀ fs pre acc seen r, _walkFields rec env m fs pre acc seen = some r →
      _walkFields rec' env m fs pre acc seen = some r := by
  intro fs
  induction fs with
  | nil => intro pre acc seen r h; exact h
  | cons f rest ih =>
    intro pre acc seen r h
    simp only [_walkFields] at h ⊢
    cases e : _walkNested rec env (_extract_base_models f.ann)
        (joinPath pre (_resolve_alias m f))
        (setAdd acc (joinPath pre (_resolve_alias m f))) seen with
    | none => rw [e] at h; cases h
    | some acc2 =>
      rw [e] at h
      rw [walkNested_rec_mono rec rec' env hrec _ _ _ _ _ e]
      exact ih pre acc2 seen r h

theorem walk_fuel_succ (env : Env) :
    ∀ fuel m pre acc seen r, _walk env fuel m pre acc seen = some r →
      _walk env (fuel + 1) m pre acc seen = some r := by
  intro fuel
  induction fuel with
  | zero => intro m pre acc seen r h; cases h
  | succ fuel ih =>
    intro m pre acc seen r h
    show _walkFields (_walk env (fuel + 1)) env m m.fields pre acc seen = some r
    exact walkFields_rec_mono (_walk env fuel) (_walk env (fuel + 1)) env m
      (fun d fl a s r2 h2 => ih d fl a s r2 h2) m.fields pre acc seen r h

/-! ## Prefix characterization of the walk -/

theorem append_dot_ne_empty (s t : String) : s ++ "." ++ t ≠ "" := by
  intro h
  have hd := congrArg String.data h
  simp [String.data_append] at hd

theorem dot_append_assoc (a b c : String) :
    (a ++ "." ++ b) ++ "." ++ c = a ++ "." ++ (b ++ "." ++ c) := by
  apply String.ext
  simp [String.data_append]

theorem joinPath_of_ne {pre : String} (hpre : pre ≠ "") (al : String) :
    joinPath pre al = pre ++ "." ++ al := by
  simp [joinPath, hpre]

theorem joinPath_empty (al : String) : joinPath "" al = al := rfl

theorem declOf_ok (env : Env) (n : ClsInfo) :
    declOf env n ∈ env ∨ (declOf env n).fields = [] := by
  unfold declOf
  cases e : lookupDecl env n.mid with
  | none => right; rfl
  | some d =>
    left
    simpa using List.mem_of_find?_eq_some e

theorem walkNested_prefix_char
    (rec : ModelDecl → String → List String → List Nat → Option (List String)) (env : Env)
    (hrecChar : ∀ d full acc seen r r0, (d ∈ env ∨ d.fields = []) → full ≠ "" →
      rec d full acc seen = some r → rec d "" [] seen = some r0 →
      ∀ x, x ∈ r ↔ (x ∈ acc ∨ ∃ q ∈ r0, x = full ++ "." ++ q))
    (hrecSome : ∀ d f1 a1 f2 a2 seen, (rec d f1 a1 seen).isSome = (rec d f2 a2 seen).isSome)
    (hrecMono : ∀ d full acc seen r, rec d full acc seen = some r → ∀ x ∈ acc, x ∈ r)
    (pre : String) :
    ∀ (ns : List ClsInfo) (Z : String) (acc accz : List String) (seen : List Nat)
      (r rz base : List String), Z ≠ "" →
      (∀ x, x ∈ acc ↔ (x ∈ base ∨ ∃ q ∈ accz, x = pre ++ "." ++ q)) →
      _walkNested rec env ns (pre ++ "." ++ Z) acc seen = some r →
      _walkNested rec env ns Z accz seen = some rz →
      ∀ x, x ∈ r ↔ (x ∈ base ∨ ∃ q ∈ rz, x = pre ++ "." ++ q) := by
  intro ns
  induction ns with
  | nil =>
    intro Z acc accz seen r rz base hZ hinv h1 h2 x
    obtain rfl := Option.some.inj h1
    obtain rfl := Option.some.inj h2
    exact hinv x
  | cons n rest ih =>
    intro Z acc accz seen r rz base hZ hinv h1 h2 x
    simp only [_walkNested] at h1 h2
    by_cases hm : n.mid ∈ seen
    · rw [if_pos hm] at h1 h2
      exact ih Z acc accz seen r rz base hZ hinv h1 h2 x
    · rw [if_neg hm] at h1 h2
      cases e1 : rec (declOf env n) (pre ++ "." ++ Z) acc (n.mid :: seen) with
      | none => rw [e1] at h1; cases h1
      | some accN =>
        rw [e1] at h1
        cases e2 : rec (declOf env n) Z accz (n.mid :: seen) with
        | none => rw [e2] at h2; cases h2
        | some acczN =>
          rw [e2] at h2
          have hsome : (rec (declOf env n) "" [] (n.mid :: seen)).isSome := by
            rw [hrecSome (declOf env n) "" [] Z accz (n.mid :: seen), e2]
            rfl
          obtain ⟨C, hC⟩ := Option.isSome_iff_exists.mp hsome
          have hchar1 := hrecChar (declOf env n) (pre ++ "." ++ Z) acc (n.mid :: seen) accN C
            (declOf_ok env n) (append_dot_ne_empty pre Z) e1 hC
          have hchar2 := hrecChar (declOf env n) Z accz (n.mid :: seen) acczN C
            (declOf_ok env n) hZ e2 hC
          have hinv2 : ∀ y, y ∈ accN ↔ (y ∈ base ∨ ∃ q ∈ acczN, y = pre ++ "." ++ q) := by
            intro y
            constructor
            · intro hy
              rcases (hchar1 y).mp hy with hy' | ⟨c, hc, rfl⟩
              · rcases (hinv y).mp hy' with hb | ⟨q, hq, rfl⟩
                · exact Or.inl hb
                · exact Or.inr ⟨q, hrecMono _ _ _ _ _ e2 q hq, rfl⟩
              · refine Or.inr ⟨Z ++ "." ++ c, (hchar2 _).mpr (Or.inr ⟨c, hc, rfl⟩), ?_⟩
                exact dot_append_assoc pre Z c
            · rintro (hb | ⟨q, hq, rfl⟩)
              · exact hrecMono _ _ _ _ _ e1 y ((hinv y).mpr (Or.inl hb))
              · rcases (hchar2 q).mp hq with hqz | ⟨c, hc, rfl⟩
                · exact hrecMono _ _ _ _ _ e1 _ ((hinv _).mpr (Or.inr ⟨q, hqz, rfl⟩))
                · refine (hchar1 _).mpr (Or.inr ⟨c, hc, ?_⟩)
                  exact (dot_append_assoc pre Z c).symm
          exact ih Z accN acczN seen r rz base hZ hinv2 h1 h2 x

theorem walkFields_prefix_char
    (rec : ModelDecl → String → List String → List Nat → Option (List String))
    (env : Env) (m : ModelDecl)
    (hrecChar : ∀ d full acc seen r r0, (d ∈ env ∨ d.fields = []) → full ≠ "" →
      rec d full acc seen = some r → rec d "" [] seen = some r0 →
      ∀ x, x ∈ r ↔ (x ∈ acc ∨ ∃ q ∈ r0, x = full ++ "." ++ q))
    (hrecSome : ∀ d f1 a1 f2 a2 seen, (rec d f1 a1 seen).isSome = (rec d f2 a2 seen).isSome)
    (hrecMono : ∀ d full acc seen r, rec d full acc seen = some r → ∀ x ∈ acc, x ∈ r)
    (pre : String) (hpre : pre ≠ "") :
    ∀ (fs : List FieldInfo) (acc accz : List String) (seen : List Nat) (r rz base : List String),
      (∀ f ∈ fs, _resolve_alias m f ≠ "") →
      (∀ x, x ∈ acc ↔ (x ∈ base ∨ ∃ q ∈ accz, x = pre ++ "." ++ q)) →
      _walkFields rec env m fs pre acc seen = some r →
      _walkFields rec env m fs "" accz seen = some rz →
      ∀ x, x ∈ r ↔ (x ∈ base ∨ ∃ q ∈ rz, x = pre ++ "." ++ q) := by
  intro fs
  induction fs with
  | nil =>
    intro acc accz seen r rz base _ hinv h1 h2 x
    obtain rfl := Option.some.inj h1
    obtain rfl := Option.some.inj h2
    exact hinv x
  | cons f rest ih =>
    intro acc accz seen r rz base hal hinv h1 h2 x
    have ha : _resolve_alias m f ≠ "" := hal f (List.mem_cons_self f rest)
    simp only [_walkFields, joinPath_of_ne hpre, joinPath_empty] at h1 h2
    have hinv1 : ∀ y, y ∈ setAdd acc (pre ++ "." ++ _resolve_alias m f) ↔
        (y ∈ base ∨ ∃ q ∈ setAdd accz (_resolve_alias m f), y = pre ++ "." ++ q) := by
      intro y
      rw [mem_setAdd]
      constructor
      · rintro (hy | rfl)
        · rcases (hinv y).mp hy with hb | ⟨q, hq, rfl⟩
          · exact Or.inl hb
          · exact Or.inr ⟨q, mem_setAdd.mpr (Or.inl hq), rfl⟩
        · exact Or.inr ⟨_resolve_alias m f, mem_setAdd.mpr (Or.inr rfl), rfl⟩
      · rintro (hb | ⟨q, hq, rfl⟩)
        · exact Or.inl ((hinv y).mpr (Or.inl hb))
        · rcases mem_setAdd.mp hq with hqz | rfl
          · exact Or.inl ((hinv _).mpr (Or.inr ⟨q, hqz, rfl⟩))
          · exact Or.inr rfl
    cases e1 : _walkNested rec env (_extract_base_models f.ann)
        (pre ++ "." ++ _resolve_alias m f)
        (setAdd acc (pre ++ "." ++ _resolve_alias m f)) seen with
    | none => rw [e1] at h1; cases h1
    | some acc2 =>
      rw [e1] at h1
      cases e2 : _walkNested rec env (_extract_base_models f.ann)
          (_resolve_alias m f) (setAdd accz (_resolve_alias m f)) seen with
      | none => rw [e2] at h2; cases h2
      | some accz2 =>
        rw [e2] at h2
        have hinv2 := walkNested_prefix_char rec env hrecChar hrecSome hrecMono pre
          (_extract_base_models f.ann) (_resolve_alias m f) _ _ seen acc2 accz2 base ha hinv1 e1 e2
        exact ih acc2 accz2 seen r rz base
          (fun g hg => hal g (List.mem_cons_of_mem f hg)) hinv2 h1 h2 x

theorem walk_prefix_char (env : Env) (hwf : NoEmptyAliases env) :
    ∀ fuel m pre acc seen r r0, (m ∈ env ∨ m.fields = []) → pre ≠ "" →
      _walk env fuel m pre acc seen = some r →
      _walk env fuel m "" [] seen = some r0 →
      ∀ x, x ∈ r ↔ (x ∈ acc ∨ ∃ q ∈ r0, x = pre ++ "." ++ q) := by
  intro fuel
  induction fuel with
  | zero => intro m pre acc seen r r0 _ _ h1; cases h1
  | succ fuel ih =>
    intro m pre acc seen r r0 hok hpre h1 h2
    have hal : ∀ f ∈ m.fields, _resolve_alias m f ≠ "" := by
      rcases hok with hm | hnil
      · exact fun f hf => hwf m hm f hf
      · intro f hf
        rw [hnil] at hf
        cases hf
    exact walkFields_prefix_char (_walk env fuel) env m
      (fun d fl a s rr rr0 hd hf ha hb => ih d fl a s rr rr0 hd hf ha hb)
      (fun d f1 a1 f2 a2 s => walk_isSome_congr env fuel d f1 a1 f2 a2 s)
      (fun d fl a s rr hh => walk_mono env fuel d fl a s rr hh)
      pre hpre m.fields acc [] seen r r0 acc hal (by simp) h1 h2

/-! ## Per-field contributions to the walk result -/

theorem walkNested_nodup
    (rec : ModelDecl → String → List String → List Nat → Option (List String)) (env : Env)
    (hrec : ∀ d full acc seen r, rec d full acc seen = some r → acc.Nodup → r.Nodup) :
    ∀ ns full acc seen r, _walkNested rec env ns full acc seen = some r → acc.Nodup → r.Nodup := by
  intro ns
  induction ns with
  | nil =>
    intro full acc seen r h hd
    exact Option.some.inj h ▸ hd
  | cons n rest ih =>
    intro full acc seen r h hd
    simp only [_walkNested] at h
    by_cases hm : n.mid ∈ seen
    · rw [if_pos hm] at h
      exact ih full acc seen r h hd
    · rw [if_neg hm] at h
      cases e : rec (declOf env n) full acc (n.mid :: seen) with
      | none => rw [e] at h; cases h
      | some acc2 =>
        rw [e] at h
        exact ih full acc2 seen r h (hrec _ _ _ _ _ e hd)

theorem walkFields_nodup
    (rec : ModelDecl → String → List String → List Nat → Option (List String))
    (env : Env) (m : ModelDecl)
    (hrec : ∀ d full acc seen r, rec d full acc seen = some r → acc.Nodup → r.Nodup) :
    ∀ fs pre acc seen r, _walkFields rec env m fs pre acc seen = some r → acc.Nodup → r.Nodup := by
  intro fs
  induction fs with
  | nil =>
    intro pre acc seen r h hd
    exact Option.some.inj h ▸ hd
  | cons f rest ih =>
    intro pre acc seen r h hd
    simp only [_walkFields] at h
    cases e : _walkNested rec env (_extract_base_models f.ann)
        (joinPath pre (_resolve_alias m f))
        (setAdd acc (joinPath pre (_resolve_alias m f))) seen with
    | none => rw [e] at h; cases h
    | some acc2 =>
      rw [e] at h
      exact ih pre acc2 seen r h (walkNested_nodup rec env hrec _ _ _ _ _ e (setAdd_nodup hd))

theorem walk_nodup (env : Env) :
    ∀ fuel m pre acc seen r, _walk env fuel m pre acc seen = some r → acc.Nodup → r.Nodup := by
  intro fuel
  induction fuel with
  | zero => intro m pre acc seen r h; cases h
  | succ fuel ih =>
    intro m pre acc seen r h hd
    exact walkFields_nodup (_walk env fuel) env m
      (fun d fl a s r2 h2 hd2 => ih d fl a s r2 h2 hd2) m.fields pre acc seen r h hd

theorem walkNested_contrib
    (rec : ModelDecl → String → List String → List Nat → Option (List String)) (env : Env)
    (hrecMono : ∀ d full acc seen r, rec d full acc seen = some r → ∀ x ∈ acc, x ∈ r) :
    ∀ ns full acc seen r, _walkNested rec env ns full acc seen = some r →
      ∀ n ∈ ns, n.mid ∉ seen →
        ∃ accN rN, rec (declOf env n) full accN (n.mid :: seen) = some rN ∧ ∀ x ∈ rN, x ∈ r := by
  intro ns
  induction ns with
  | nil => intro full acc seen r _ n hn; cases hn
  | cons n' rest ih =>
    intro full acc seen r h n hn hns
    simp only [_walkNested] at h
    rcases List.mem_cons.mp hn with rfl | hn'
    · rw [if_neg hns] at h
      cases e : rec (declOf env n) full acc (n.mid :: seen) with
      | none => rw [e] at h; cases h
      | some rN =>
        rw [e] at h
        exact ⟨acc, rN, e, fun x hx => walkNested_mono rec env hrecMono rest full rN seen r h x hx⟩
    · by_cases hm : n'.mid ∈ seen
      · rw [if_pos hm] at h
        exact ih full acc seen r h n hn' hns
      · rw [if_neg hm] at h
        cases e : rec (declOf env n') full acc (n'.mid :: seen) with
        | none => rw [e] at h; cases h
        | some acc2 =>
          rw [e] at h
          exact ih full acc2 seen r h n hn' hns

theorem walkFields_contrib
    (rec : ModelDecl → String → List String → List Nat → Option (List String))
    (env : Env) (m : ModelDecl)
    (hrecMono : ∀ d full acc seen r, rec d full acc seen = some r → ∀ x ∈ acc, x ∈ r) :
    ∀ fs pre acc seen r, _walkFields rec env m fs pre acc seen = some r →
      ∀ f ∈ fs, ∃ accF rF,
        _walkNested rec env (_extract_base_models f.ann)
          (joinPath pre (_resolve_alias m f)) accF seen = some rF
        ∧ joinPath pre (_resolve_alias m f) ∈ accF
        ∧ ∀ x ∈ rF, x ∈ r := by
  intro fs
  induction fs with
  | nil => intro pre acc seen r _ f hf; cases hf
  | cons f' rest ih =>
    intro pre acc seen r h f hf
    simp only [_walkFields] at h
    rcases List.mem_cons.mp hf with rfl | hf'
    · cases e : _walkNested rec env (_extract_base_models f.ann)
          (joinPath pre (_resolve_alias m f))
          (setAdd acc (joinPath pre (_resolve_alias m f))) seen with
      | none => rw [e] at h; cases h
      | some rF =>
        rw [e] at h
        refine ⟨setAdd acc (joinPath pre (_resolve_alias m f)), rF, e,
          mem_setAdd.mpr (Or.inr rfl), ?_⟩
        intro x hx
        exact walkFields_mono rec env m hrecMono rest pre rF seen r h x hx
    · cases e : _walkNested rec env (_extract_base_models f'.ann)
          (joinPath pre (_resolve_alias m f'))
          (setAdd acc (joinPath pre (_resolve_alias m f'))) seen with
      | none => rw [e] at h; cases h
      | some acc2 =>
        rw [e] at h
        exact ih pre acc2 seen r h f hf'

theorem extract_iterList (a : Ann) : ∀ k, _extract_base_models (iterList (k + 1) a) = _extract_base_models a := by
  intro k
  induction k with
  | zero => rfl
  | succ k ih =>
    show _extract_base_models (Ann.listOf [iterList (k + 1) a]) = _
    rw [← ih]
    rfl

/-! ## C6: nested-record paths under a field's resolved alias -/

/-- Counterexample to C6 as stated: for `R3 { f: N }` with the
self-referential model `N { s: str, child: N }`, the standalone path set
of `N` contains `child.child`, but `f.child.child` is not among the
paths of `R3` — the nested model enters the ancestor set when the walk
descends into it, so its own self-reference is not unrolled again. -/
theorem C6_counterexample :
    collect_field_paths exEnv exNDecl = some ["child", "child.child", "child.s", "s"]
    ∧ collect_field_paths exEnv exR3Decl = some ["f", "f.child", "f.s"]
    ∧ "child.child" ∈ ["child", "child.child", "child.s", "s"]
    ∧ "f" ++ "." ++ "child.child" = "f.child.child"
    ∧ "f.child.child" ∉ ["f", "f.child", "f.s"] :=
  ⟨by decide, by decide, by decide, by decide, by decide⟩

/-- C6 (amended): for every closed environment with nonempty aliases,
every root model `R` declared in it, every field `f` of `R` and every
nested model `n` extracted from `f`'s annotation (which covers a plain
nested record, a list of any nesting depth of one, and every non-`None`
variant of a `Union`, by the two trailing identities): the walk of `R`
records `f`'s resolved alias as a path (exactly once — the result has no
duplicates — and with no index or element marker), and every path that
the walker produces for `n` under the branch's extended ancestor set
`{n}` appears dot-prefixed by that resolved alias. -/
theorem C6_nested_model_paths (env : Env) (R : ModelDecl) (f : FieldInfo) (n : ClsInfo)
    (hwf : NoEmptyAliases env) (hce : ClosedEnv env)
    (hR : R ∈ env) (hf : f ∈ R.fields) (hn : n ∈ _extract_base_models f.ann) :
    (∃ r rn, collect_field_paths env R = some r ∧
      _walk env (walkFuel env) (declOf env n) "" [] [n.mid] = some rn ∧
      r.Nodup ∧
      _resolve_alias R f ∈ r ∧
      (∀ q ∈ rn, (_resolve_alias R f ++ "." ++ q) ∈ r))
    ∧ (∀ (a : Ann) (k : Nat), _extract_base_models (iterList (k + 1) a) = _extract_base_models a)
    ∧ (∀ args : List Ann, _extract_base_models (Ann.unionOf args) = extractFromVariants args) := by
  refine ⟨?_, fun a k => extract_iterList a k, fun args => rfl⟩
  have hsome := collect_field_paths_isSome env R hce (hce R hR)
  unfold collect_field_paths at hsome
  cases e : _walk env (walkFuel env) R "" [] [] with
  | none => rw [e] at hsome; cases hsome
  | some rRaw =>
    have hwalk : _walkFields (_walk env env.length) env R R.fields "" [] [] = some rRaw := e
    have hrecMono : ∀ d fl a s r2, _walk env env.length d fl a s = some r2 → ∀ x ∈ a, x ∈ r2 :=
      fun d fl a s r2 h2 => walk_mono env env.length d fl a s r2 h2
    obtain ⟨accF, rF, hNrun, hfullmem, hsub⟩ :=
      walkFields_contrib (_walk env env.length) env R hrecMono R.fields "" [] [] rRaw hwalk f hf
    rw [joinPath_empty] at hNrun hfullmem
    have hamem : _resolve_alias R f ∈ rRaw :=
      hsub _ (walkNested_mono (_walk env env.length) env hrecMono _ _ _ _ _ hNrun _ hfullmem)
    obtain ⟨accN, rN, hrecRun, hNsub⟩ :=
      walkNested_contrib (_walk env env.length) env hrecMono (_extract_base_models f.ann)
        (_resolve_alias R f) accF [] rF hNrun n hn (by simp)
    have hcsome : (_walk env env.length (declOf env n) "" [] [n.mid]).isSome := by
      rw [walk_isSome_congr env env.length (declOf env n) "" [] (_resolve_alias R f) accN [n.mid],
        hrecRun]
      rfl
    obtain ⟨rn0, hrn0⟩ := Option.isSome_iff_exists.mp hcsome
    have ha : _resolve_alias R f ≠ "" := hwf R hR f hf
    have hchar := walk_prefix_char env hwf env.length (declOf env n) (_resolve_alias R f)
      accN [n.mid] rN rn0 (declOf_ok env n) ha hrecRun hrn0
    refine ⟨sortedStrings rRaw, rn0, by rw [collect_field_paths, e]; rfl,
      walk_fuel_succ env env.length _ _ _ _ _ hrn0, ?_, ?_, ?_⟩
    · exact sortedStrings_nodup (walk_nodup env (walkFuel env) R "" [] [] rRaw e List.nodup_nil)
    · exact mem_sortedStrings.mpr hamem
    · intro q hq
      have hmem : _resolve_alias R f ++ "." ++ q ∈ rN :=
        (hchar _).mpr (Or.inr ⟨q, hq, rfl⟩)
      exact mem_sortedStrings.mpr (hsub _ (hNsub _ hmem))

/-- Witness for C6 on the example environment: `R2 { a: N, b: N }` with
field `a` of nested model `N`. -/
theorem C6_witness :
    (∃ r rn, collect_field_paths exEnv exR2Decl = some r ∧
      _walk exEnv (walkFuel exEnv) (declOf exEnv exNCls) "" [] [exNCls.mid] = some rn ∧
      r.Nodup ∧
      _resolve_alias exR2Decl ⟨"a", none, none, Ann.cls exNCls⟩ ∈ r ∧
      (∀ q ∈ rn, (_resolve_alias exR2Decl ⟨"a", none, none, Ann.cls exNCls⟩ ++ "." ++ q) ∈ r))
    ∧ (∀ (a : Ann) (k : Nat), _extract_base_models (iterList (k + 1) a) = _extract_base_models a)
    ∧ (∀ args : List Ann, _extract_base_models (Ann.unionOf args) = extractFromVariants args) :=
  C6_nested_model_paths exEnv exR2Decl ⟨"a", none, none, Ann.cls exNCls⟩ exNCls
    (by unfold NoEmptyAliases; decide) (by unfold ClosedEnv ClosedModel; decide)
    (List.mem_cons_of_mem _ (List.mem_cons_self _ _)) (List.mem_cons_self _ _) (by decide)

/-! ## C4: the emitted query shape -/

/-- Counterexample to C4 as stated: a field of exact type
`dict[str, Any]` is emitted bare in the query TypedDict, not wrapped in
the operator type. -/
theorem C4_counterexample :
    collect_field_path_types [exMetaDecl] exMetaDecl =
      some [("meta", Ann.dictOf [Ann.builtin "str", Ann.anyTy]), ("age", Ann.builtin "int")]
    ∧ queryEntries [] [("meta", Ann.dictOf [Ann.builtin "str", Ann.anyTy]), ("age", Ann.builtin "int")] =
        [("age", "Op[int]"), ("meta", "dict[str, Any]"), ("$expr", "dict[str, Any]")]
    ∧ ("meta", "dict[str, Any]") ∈
        queryEntries [] [("meta", Ann.dictOf [Ann.builtin "str", Ann.anyTy]), ("age", Ann.builtin "int")]
    ∧ "dict[str, Any]" ≠
        "Op[" ++ _query_value_type_src [] (Ann.dictOf [Ann.builtin "str", Ann.anyTy]) ++ "]" :=
  ⟨rfl, by decide, by decide, by decide⟩

/-- C4 (amended): for every model, the emitted query declaration lists
exactly the sorted field paths followed by the single catch-all
`"$expr"` entry; every path whose exact rendering is not
`dict[str, Any]` maps to its operator-wrapped query-value rendering,
while a path rendering exactly `dict[str, Any]` keeps that bare type;
when no field path is itself named `"$expr"`, the declaration contains
exactly one catch-all entry. -/
theorem C4_query_shape (env : Env) (m : ModelDecl) (pts : List (String × Ann))
    (aliases : List (String × String))
    (h : collect_field_path_types env m = some pts) :
    ((queryEntries aliases pts).map Prod.fst = sortedKeys pts ++ ["$expr"])
    ∧ (∀ p, p ∈ pts.map Prod.fst →
        (p, if _annotation_to_source aliases (dictGet pts p) = "dict[str, Any]"
            then "dict[str, Any]"
            else "Op[" ++ _query_value_type_src aliases (dictGet pts p) ++ "]")
          ∈ queryEntries aliases pts)
    ∧ ("$expr" ∉ pts.map Prod.fst →
        ((queryEntries aliases pts).filter (fun e2 => e2.1 = "$expr")).length = 1) := by
  refine ⟨?_, ?_, ?_⟩
  · unfold queryEntries
    rw [List.map_append, List.map_map]
    congr 1
    exact List.map_id _
  · intro p hp
    unfold queryEntries
    apply List.mem_append_left
    apply List.mem_map.mpr
    refine ⟨p, ?_, ?_⟩
    · unfold sortedKeys
      exact mem_sortedStrings.mpr hp
    · have hsrc : queryEntrySrc aliases (dictGet pts p) =
          if _annotation_to_source aliases (dictGet pts p) = "dict[str, Any]"
          then "dict[str, Any]"
          else "Op[" ++ _query_value_type_src aliases (dictGet pts p) ++ "]" := by
        by_cases hc : _annotation_to_source aliases (dictGet pts p) = "dict[str, Any]" <;>
          simp [queryEntrySrc, hc]
      exact congrArg (Prod.mk p) hsrc
  · intro hne
    unfold queryEntries
    rw [List.filter_append]
    have h1 : ((sortedKeys pts).map
        (fun p => (p, queryEntrySrc aliases (dictGet pts p)))).filter
          (fun e2 => e2.1 = "$expr") = [] := by
      rw [List.filter_eq_nil_iff]
      intro e2 he2
      rcases List.mem_map.mp he2 with ⟨p, hp, rfl⟩
      simp only [decide_eq_true_eq]
      intro hpe
      have : p ∈ pts.map Prod.fst := mem_sortedStrings.mp hp
      rw [hpe] at this
      exact hne this
    rw [h1]
    rfl

/-- Witness for C4 on the example model with a `dict[str, Any]` and an
`int` field. -/
theorem C4_witness :
    ((queryEntries []
        [("meta", Ann.dictOf [Ann.builtin "str", Ann.anyTy]), ("age", Ann.builtin "int")]).map Prod.fst =
      sortedKeys [("meta", Ann.dictOf [Ann.builtin "str", Ann.anyTy]), ("age", Ann.builtin "int")] ++ ["$expr"])
    ∧ (∀ p, p ∈ [("meta", Ann.dictOf [Ann.builtin "str", Ann.anyTy]), ("age", Ann.builtin "int")].map Prod.fst →
        (p, if _annotation_to_source []
              (dictGet [("meta", Ann.dictOf [Ann.builtin "str", Ann.anyTy]), ("age", Ann.builtin "int")] p) = "dict[str, Any]"
            then "dict[str, Any]"
            else "Op[" ++ _query_value_type_src []
              (dictGet [("meta", Ann.dictOf [Ann.builtin "str", Ann.anyTy]), ("age", Ann.builtin "int")] p) ++ "]")
          ∈ queryEntries [] [("meta", Ann.dictOf [Ann.builtin "str", Ann.anyTy]), ("age", Ann.builtin "int")])
    ∧ ("$expr" ∉ [("meta", Ann.dictOf [Ann.builtin "str", Ann.anyTy]), ("age", Ann.builtin "int")].map Prod.fst →
        ((queryEntries []
          [("meta", Ann.dictOf [Ann.builtin "str", Ann.anyTy]), ("age", Ann.builtin "int")]).filter
            (fun e2 => e2.1 = "$expr")).length = 1) :=
  C4_query_shape [exMetaDecl] exMetaDecl
    [("meta", Ann.dictOf [Ann.builtin "str", Ann.anyTy]), ("age", Ann.builtin "int")] [] rfl

/-! ## C5: import collision resolution -/

theorem find?_map_update (k v k' : String) :
    ∀ d : List (String × List String),
      (d.map (fun p => if p.1 = k then (p.1, p.2 ++ [v]) else p)).find?
          (fun p => decide (p.1 = k')) =
        (d.find? (fun p => decide (p.1 = k'))).map
          (fun p => if p.1 = k then (p.1, p.2 ++ [v]) else p) := by
  intro d
  induction d with
  | nil => rfl
  | cons p rest ih =>
    have hfst : (if p.1 = k then (p.1, p.2 ++ [v]) else p).1 = p.1 := by
      by_cases hp : p.1 = k <;> simp [hp]
    rw [List.map_cons, List.find?_cons, List.find?_cons]
    have hsc : (decide ((if p.1 = k then (p.1, p.2 ++ [v]) else p).1 = k')) =
        (decide (p.1 = k')) := by rw [hfst]
    rw [hsc]
    cases hc : decide (p.1 = k') with
    | true => rfl
    | false => exact ih

theorem assocGetStrs_map_update (k v k' : String) (h : k' ≠ k)
    (d : List (String × List String)) :
    assocGetStrs (d.map (fun p => if p.1 = k then (p.1, p.2 ++ [v]) else p)) k' =
      assocGetStrs d k' := by
  unfold assocGetStrs
  rw [find?_map_update]
  cases e : d.find? (fun p => decide (p.1 = k')) with
  | none => rfl
  | some p =>
    have hp : p.1 = k' := by simpa using List.find?_some e
    have hupd : (if p.1 = k then (p.1, p.2 ++ [v]) else p) = p := by
      rw [if_neg]
      rw [hp]
      exact h
    simp [hupd]

theorem assocGetStrs_map_update_self (k v : String)
    (d : List (String × List String)) (hany : d.any (fun p => p.1 = k) = true) :
    assocGetStrs (d.map (fun p => if p.1 = k then (p.1, p.2 ++ [v]) else p)) k =
      assocGetStrs d k ++ [v] := by
  unfold assocGetStrs
  rw [find?_map_update]
  have hsome : (d.find? (fun p => decide (p.1 = k))).isSome := by
    rw [List.find?_isSome]
    rcases List.any_eq_true.mp hany with ⟨q, hq, hqk⟩
    exact ⟨q, hq, hqk⟩
  obtain ⟨p, hp⟩ := Option.isSome_iff_exists.mp hsome
  rw [hp]
  have hpk : p.1 = k := by simpa using List.find?_some hp
  simp [hpk]

theorem find?_append_none {α : Type} (p : α → Bool) (l1 l2 : List α)
    (h : l1.find? p = none) : (l1 ++ l2).find? p = l2.find? p := by
  induction l1 with
  | nil => rfl
  | cons x rest ih =>
    rw [List.find?_cons] at h
    rw [List.cons_append, List.find?_cons]
    cases hx : p x with
    | true => rw [hx] at h; cases h
    | false =>
      rw [hx] at h
      exact ih h

theorem find?_append_some {α : Type} (p : α → Bool) (l1 l2 : List α) (x : α)
    (h : l1.find? p = some x) : (l1 ++ l2).find? p = some x := by
  induction l1 with
  | nil => cases h
  | cons y rest ih =>
    rw [List.find?_cons] at h
    rw [List.cons_append, List.find?_cons]
    cases hy : p y with
    | true => rw [hy] at h; exact h
    | false =>
      rw [hy] at h
      exact ih h

theorem assocGetStrs_sda_same (d : List (String × List String)) (k v : String) :
    assocGetStrs (setdefaultAppend d k v) k = assocGetStrs d k ++ [v] := by
  unfold setdefaultAppend
  by_cases hany : d.any (fun p => p.1 = k)
  · rw [if_pos hany]
    exact assocGetStrs_map_update_self k v d hany
  · rw [if_neg hany]
    have hnone : d.find? (fun p => decide (p.1 = k)) = none := by
      rw [List.find?_eq_none]
      intro p hp hpk
      simp only [decide_eq_true_eq] at hpk
      exact hany (List.any_eq_true.mpr ⟨p, hp, by simp [hpk]⟩)
    unfold assocGetStrs
    rw [find?_append_none _ _ _ hnone, hnone]
    simp

theorem assocGetStrs_sda_other (d : List (String × List String)) (k v k' : String)
    (h : k' ≠ k) :
    assocGetStrs (setdefaultAppend d k v) k' = assocGetStrs d k' := by
  unfold setdefaultAppend
  by_cases hany : d.any (fun p => p.1 = k)
  · rw [if_pos hany]
    exact assocGetStrs_map_update k v k' h d
  · rw [if_neg hany]
    unfold assocGetStrs
    cases e : d.find? (fun p => decide (p.1 = k')) with
    | some p => rw [find?_append_some _ _ _ _ e]
    | none =>
      rw [find?_append_none _ _ _ e]
      have hlast : (List.find? (fun p => decide (p.1 = k')) [(k, [v])]) = none := by
        rw [List.find?_eq_none]
        intro p hp hpk
        rw [List.mem_singleton] at hp
        rw [hp] at hpk
        simp only [decide_eq_true_eq] at hpk
        exact h hpk.symm
      rw [hlast]

theorem assocGetStrs_nameToModules_aux (k : String) :
    ∀ (user : List (String × String)) (d : List (String × List String)),
      assocGetStrs (user.foldl (fun d2 p => setdefaultAppend d2 p.2 p.1) d) k =
        assocGetStrs d k ++ (user.filter (fun p => p.2 = k)).map Prod.fst := by
  intro user
  induction user with
  | nil => intro d; simp
  | cons p rest ih =>
    intro d
    rw [List.foldl_cons, ih]
    by_cases hp : p.2 = k
    · rw [← hp, assocGetStrs_sda_same]
      rw [List.filter_cons_of_pos (by simp [hp])]
      rw [List.map_cons, List.append_assoc, List.singleton_append, hp]
    · rw [assocGetStrs_sda_other _ _ _ _ (fun he => hp he.symm)]
      rw [List.filter_cons_of_neg (by simp [hp])]

theorem assocGetStrs_nameToModules (user : List (String × String)) (k : String) :
    assocGetStrs (nameToModules user) k = (user.filter (fun p => p.2 = k)).map Prod.fst := by
  unfold nameToModules
  rw [assocGetStrs_nameToModules_aux]
  rfl

theorem keys_sda (d : List (String × List String)) (k v : String) :
    (setdefaultAppend d k v).map Prod.fst =
      if d.any (fun p => p.1 = k) then d.map Prod.fst else d.map Prod.fst ++ [k] := by
  unfold setdefaultAppend
  by_cases h : d.any (fun p => p.1 = k)
  · rw [if_pos h, if_pos h, List.map_map]
    refine List.map_congr_left ?_
    intro p _
    by_cases hp : p.1 = k <;> simp [hp]
  · rw [if_neg h, if_neg h, List.map_append]
    rfl

theorem keys_nodup_sda (d : List (String × List String)) (k v : String)
    (h : (d.map Prod.fst).Nodup) : ((setdefaultAppend d k v).map Prod.fst).Nodup := by
  rw [keys_sda]
  by_cases hany : d.any (fun p => p.1 = k)
  · rw [if_pos hany]; exact h
  · rw [if_neg hany]
    have hk : k ∉ d.map Prod.fst := by
      intro hk
      rcases List.mem_map.mp hk with ⟨p, hp, he⟩
      exact hany (List.any_eq_true.mpr ⟨p, hp, by simp [he]⟩)
    rw [List.nodup_append]
    exact ⟨h, List.nodup_singleton k, by
      intro a ha hax
      rw [List.mem_singleton] at hax
      exact hk (hax ▸ ha)⟩

theorem keys_nodup_nameToModules (user : List (String × String)) :
    ((nameToModules user).map Prod.fst).Nodup := by
  unfold nameToModules
  suffices h : ∀ (l : List (String × String)) (d : List (String × List String)),
      (d.map Prod.fst).Nodup →
      ((l.foldl (fun d2 p => setdefaultAppend d2 p.2 p.1) d).map Prod.fst).Nodup by
    exact h user [] (by simp)
  intro l
  induction l with
  | nil => intro d hd; exact hd
  | cons p rest ih =>
    intro d hd
    rw [List.foldl_cons]
    exact ih _ (keys_nodup_sda d p.2 p.1 hd)

theorem find?_eq_of_mem_keysNodup :
    ∀ (d : List (String × List String)) (g : String × List String),
      (d.map Prod.fst).Nodup → g ∈ d →
      d.find? (fun p => decide (p.1 = g.1)) = some g := by
  intro d
  induction d with
  | nil => intro g _ hg; cases hg
  | cons p rest ih =>
    intro g hnd hg
    rcases List.mem_cons.mp hg with rfl | hg'
    · rw [List.find?_cons]
      simp
    · have hne : ¬ (p.1 = g.1) := by
        intro he
        have : p.1 ∈ rest.map Prod.fst := he ▸ List.mem_map.mpr ⟨g, hg', rfl⟩
        rw [List.map_cons] at hnd
        exact (List.nodup_cons.mp hnd).1 this
      rw [List.find?_cons]
      have : (decide (p.1 = g.1)) = false := by simp [hne]
      rw [this]
      exact ih g (by rw [List.map_cons] at hnd; exact (List.nodup_cons.mp hnd).2) hg'

theorem vals_eq_of_mem_groups (user : List (String × String)) (g : String × List String)
    (hg : g ∈ nameToModules user) :
    g.2 = (user.filter (fun p => p.2 = g.1)).map Prod.fst := by
  have h1 := find?_eq_of_mem_keysNodup (nameToModules user) g (keys_nodup_nameToModules user) hg
  have h2 := assocGetStrs_nameToModules user g.1
  unfold assocGetStrs at h2
  rw [h1] at h2
  simpa using h2

theorem mem_groups_of_vals_ne (user : List (String × String)) (k : String)
    (h : assocGetStrs (nameToModules user) k ≠ []) :
    (k, assocGetStrs (nameToModules user) k) ∈ nameToModules user := by
  unfold assocGetStrs at h ⊢
  cases e : (nameToModules user).find? (fun p => decide (p.1 = k)) with
  | none => rw [e] at h; simp at h
  | some p =>
    rw [e] at h
    have hp1 : p.1 = k := by simpa using List.find?_some e
    have hpm : p ∈ nameToModules user := List.mem_of_find?_eq_some e
    have : (k, (Option.map (fun p => p.2) (some p)).getD []) = p := by
      rw [← hp1]
      rfl
    rw [this]
    exact hpm

theorem mem_foldl_append_vals :
    ∀ (l : List (String × List String)) (init : List String) (x : String),
      x ∈ l.foldl (fun acc g => acc ++ g.2) init ↔ x ∈ init ∨ ∃ g ∈ l, x ∈ g.2 := by
  intro l
  induction l with
  | nil => intro init x; simp
  | cons g rest ih =>
    intro init x
    rw [List.foldl_cons, ih, List.mem_append]
    constructor
    · rintro ((hx | hx) | ⟨g2, hg2, hx⟩)
      · exact Or.inl hx
      · exact Or.inr ⟨g, List.mem_cons_self g rest, hx⟩
      · exact Or.inr ⟨g2, List.mem_cons_of_mem g hg2, hx⟩
    · rintro (hx | ⟨g2, hg2, hx⟩)
      · exact Or.inl (Or.inl hx)
      · rcases List.mem_cons.mp hg2 with rfl | hg2'
        · exact Or.inl (Or.inr hx)
        · exact Or.inr ⟨g2, hg2', hx⟩

theorem exists_ne_of_one_lt_length {l : List String} {x : String}
    (hnd : l.Nodup) (hx : x ∈ l) (hlen : 1 < l.length) : ∃ y ∈ l, y ≠ x := by
  rcases l with _ | ⟨a, _ | ⟨b, rest⟩⟩
  · cases hx
  · simp at hlen
  · rcases List.mem_cons.mp hx with rfl | hx'
    · refine ⟨b, List.mem_cons_of_mem _ (List.mem_cons_self b rest), ?_⟩
      intro he
      exact (List.nodup_cons.mp hnd).1 (he ▸ List.mem_cons_self b rest)
    · refine ⟨a, List.mem_cons_self _ _, ?_⟩
      intro he
      exact (List.nodup_cons.mp hnd).1 (he ▸ hx')

theorem one_lt_length_of_two_mem {l : List String} {x y : String}
    (hx : x ∈ l) (hy : y ∈ l) (hxy : x ≠ y) : 1 < l.length := by
  rcases l with _ | ⟨a, _ | ⟨b, rest⟩⟩
  · cases hx
  · rw [List.mem_singleton] at hx hy
    exact absurd (hx.trans hy.symm) hxy
  · simp [List.length_cons]

theorem nodup_groupVals {user : List (String × String)} (hnd : user.Nodup) (k : String) :
    ((user.filter (fun p => p.2 = k)).map Prod.fst).Nodup := by
  refine List.Nodup.map_on ?_ (hnd.filter _)
  intro x hx y hy hf
  have hx2 : x.2 = k := by simpa using (List.mem_filter.mp hx).2
  have hy2 : y.2 = k := by simpa using (List.mem_filter.mp hy).2
  exact Prod.ext hf (hx2.trans hy2.symm)

theorem lookupAlias_map (g : String → String) :
    ∀ (xs : List String) (m : String),
      lookupAlias (xs.map (fun x => (x, g x))) m = if m ∈ xs then some (g m) else none := by
  intro xs
  induction xs with
  | nil => intro m; simp [lookupAlias]
  | cons x rest ih =>
    intro m
    unfold lookupAlias at ih ⊢
    rw [List.map_cons, List.find?_cons]
    by_cases hx : x = m
    · have : (decide ((x, g x).1 = m)) = true := by simp [hx]
      rw [this]
      rw [hx]
      simp
    · have : (decide ((x, g x).1 = m)) = false := by simp [hx]
      rw [this, ih m]
      have hiff : (m ∈ x :: rest) ↔ (m ∈ rest) := by
        rw [List.mem_cons]
        constructor
        · rintro (he | hm)
          · exact absurd he.symm hx
          · exact hm
        · exact Or.inr
      exact (if_congr hiff rfl rfl).symm

theorem build_aliases_lookup (ai : List (String × String)) (m : String) :
    lookupAlias (_build_module_aliases ai) m =
      if m ∈ ((nameToModules ((ai.filter (fun p => p.1 ≠ "typing")).dedup)).filter
          (fun g => 1 < g.2.length)).foldl (fun acc g => acc ++ g.2) []
      then some (_module_alias m) else none := by
  unfold _build_module_aliases
  exact lookupAlias_map _module_alias _ m

theorem conflicting_of_collision (ai : List (String × String)) (m nm m' : String)
    (hm : m ≠ "typing") (hm' : m' ≠ "typing") (hne : m' ≠ m)
    (hmem : (m, nm) ∈ ai) (hmem' : (m', nm) ∈ ai) :
    m ∈ ((nameToModules ((ai.filter (fun p => p.1 ≠ "typing")).dedup)).filter
        (fun g => 1 < g.2.length)).foldl (fun acc g => acc ++ g.2) [] := by
  have hu : (m, nm) ∈ (ai.filter (fun p => p.1 ≠ "typing")).dedup := by
    rw [List.mem_dedup, List.mem_filter]
    exact ⟨hmem, by simpa using hm⟩
  have hu' : (m', nm) ∈ (ai.filter (fun p => p.1 ≠ "typing")).dedup := by
    rw [List.mem_dedup, List.mem_filter]
    exact ⟨hmem', by simpa using hm'⟩
  have hvals := assocGetStrs_nameToModules ((ai.filter (fun p => p.1 ≠ "typing")).dedup) nm
  have hmv : m ∈ assocGetStrs (nameToModules ((ai.filter (fun p => p.1 ≠ "typing")).dedup)) nm := by
    rw [hvals]
    exact List.mem_map.mpr ⟨(m, nm), List.mem_filter.mpr ⟨hu, by simp⟩, rfl⟩
  have hmv' : m' ∈ assocGetStrs (nameToModules ((ai.filter (fun p => p.1 ≠ "typing")).dedup)) nm := by
    rw [hvals]
    exact List.mem_map.mpr ⟨(m', nm), List.mem_filter.mpr ⟨hu', by simp⟩, rfl⟩
  have hlen : 1 < (assocGetStrs (nameToModules ((ai.filter (fun p => p.1 ≠ "typing")).dedup)) nm).length :=
    one_lt_length_of_two_mem hmv' hmv hne
  have hg := mem_groups_of_vals_ne ((ai.filter (fun p => p.1 ≠ "typing")).dedup) nm (by
    intro h0
    rw [h0] at hmv
    cases hmv)
  have hgf : (nm, assocGetStrs (nameToModules ((ai.filter (fun p => p.1 ≠ "typing")).dedup)) nm) ∈
      (nameToModules ((ai.filter (fun p => p.1 ≠ "typing")).dedup)).filter
        (fun g => 1 < g.2.length) :=
    List.mem_filter.mpr ⟨hg, by simpa using hlen⟩
  exact (mem_foldl_append_vals _ [] m).mpr (Or.inr ⟨_, hgf, hmv⟩)

theorem no_collision_build_aliases_nil (ai : List (String × String))
    (h : ∀ nm mm mm', mm ≠ "typing" → mm' ≠ "typing" →
      (mm, nm) ∈ ai → (mm', nm) ∈ ai → mm = mm') :
    _build_module_aliases ai = [] := by
  show (((nameToModules ((ai.filter (fun p => p.1 ≠ "typing")).dedup)).filter
      (fun g => 1 < g.2.length)).foldl (fun acc g => acc ++ g.2) []).map
        (fun m => (m, _module_alias m)) = []
  rw [List.map_eq_nil_iff, List.eq_nil_iff_forall_not_mem]
  intro x hx
  rw [mem_foldl_append_vals] at hx
  rcases hx with hx | ⟨g, hgf, hx⟩
  · cases hx
  · obtain ⟨hg, hglen⟩ := List.mem_filter.mp hgf
    have hvals := vals_eq_of_mem_groups _ g hg
    have hxv : x ∈ (((ai.filter (fun p => p.1 ≠ "typing")).dedup).filter
        (fun p => p.2 = g.1)).map Prod.fst := by
      rw [← hvals]
      exact hx
    have hnd := nodup_groupVals (List.nodup_dedup (ai.filter (fun p => p.1 ≠ "typing"))) g.1
    have hlen : 1 < ((((ai.filter (fun p => p.1 ≠ "typing")).dedup).filter
        (fun p => p.2 = g.1)).map Prod.fst).length := by
      rw [← hvals]
      simpa using hglen
    obtain ⟨y, hy, hyx⟩ := exists_ne_of_one_lt_length hnd hxv hlen
    rcases List.mem_map.mp hxv with ⟨px, hpx, rfl⟩
    rcases List.mem_map.mp hy with ⟨py, hpy, rfl⟩
    have hpx2 : px.2 = g.1 := by simpa using (List.mem_filter.mp hpx).2
    have hpy2 : py.2 = g.1 := by simpa using (List.mem_filter.mp hpy).2
    have hpxu := List.mem_dedup.mp (List.mem_filter.mp hpx).1
    have hpyu := List.mem_dedup.mp (List.mem_filter.mp hpy).1
    have hpxai : px ∈ ai := (List.mem_filter.mp hpxu).1
    have hpyai : py ∈ ai := (List.mem_filter.mp hpyu).1
    have hpxt : px.1 ≠ "typing" := by simpa using (List.mem_filter.mp hpxu).2
    have hpyt : py.1 ≠ "typing" := by simpa using (List.mem_filter.mp hpyu).2
    have hmx : (px.1, g.1) ∈ ai := by rw [← hpx2]; exact hpxai
    have hmy : (py.1, g.1) ∈ ai := by rw [← hpy2]; exact hpyai
    exact hyx (h g.1 py.1 px.1 hpyt hpxt hmy hmx)

theorem import_line_mem (ai ma : List (String × String)) (m al : String)
    (h : lookupAlias ma m = some al) :
    ("import " ++ m ++ " as " ++ al ++ "\n") ∈ stubHeaderChunks ai ma := by
  have hm : m ∈ (ma.map Prod.fst).dedup := by
    unfold lookupAlias at h
    cases e : ma.find? (fun p => decide (p.1 = m)) with
    | none => rw [e] at h; cases h
    | some p =>
      have hp1 : p.1 = m := by simpa using List.find?_some e
      exact List.mem_dedup.mpr (List.mem_map.mpr ⟨p, List.mem_of_find?_eq_some e, hp1⟩)
  have hline : ("import " ++ m ++ " as " ++ al ++ "\n") ∈
      (sortedStrings ((ma.map Prod.fst).dedup)).map (fun module =>
        "import " ++ module ++ " as " ++ ((lookupAlias ma module).getD "") ++ "\n") := by
    refine List.mem_map.mpr ⟨m, mem_sortedStrings.mpr hm, ?_⟩
    rw [h]
    rfl
  unfold stubHeaderChunks
  exact List.mem_append.mpr (Or.inl (List.mem_append.mpr (Or.inr hline)))

/-- C5: grouping the non-`typing` import pairs by bare name, a module
claimed together with a different module for the same bare name is
aliased under its synthetic deterministic alias; if no bare name is
claimed by two modules the alias map is empty; a class whose module is
aliased renders qualified as `alias.Name` and renders bare otherwise;
and every aliased module gets an `import module as alias` line in the
stub header. -/
theorem C5_import_collision_resolution :
    (∀ (all_imports : List (String × String)) (m nm m' : String),
      m ≠ "typing" → m' ≠ "typing" → m' ≠ m →
      (m, nm) ∈ all_imports → (m', nm) ∈ all_imports →
      lookupAlias (_build_module_aliases all_imports) m = some (_module_alias m))
    ∧ (∀ all_imports : List (String × String),
      (∀ nm mm mm', mm ≠ "typing" → mm' ≠ "typing" →
        (mm, nm) ∈ all_imports → (mm', nm) ∈ all_imports → mm = mm') →
      _build_module_aliases all_imports = [])
    ∧ (∀ (aliases : List (String × String)) (c : ClsInfo) (al : String),
      lookupAlias aliases c.module = some al →
      _annotation_to_source aliases (Ann.cls c) = al ++ "." ++ c.name)
    ∧ (∀ (aliases : List (String × String)) (c : ClsInfo),
      lookupAlias aliases c.module = none →
      _annotation_to_source aliases (Ann.cls c) = c.name)
    ∧ (∀ (all_imports module_aliases : List (String × String)) (m al : String),
      lookupAlias module_aliases m = some al →
      ("import " ++ m ++ " as " ++ al ++ "\n") ∈ stubHeaderChunks all_imports module_aliases) := by
  refine ⟨?_, ?_, ?_, ?_, ?_⟩
  · intro ai m nm m' hm hm' hne hmem hmem'
    rw [build_aliases_lookup,
      if_pos (conflicting_of_collision ai m nm m' hm hm' hne hmem hmem')]
  · exact no_collision_build_aliases_nil
  · intro aliases c al h
    simp [_annotation_to_source, h]
  · intro aliases c h
    simp [_annotation_to_source, h]
  · exact import_line_mem

/-- Witness for C5: two modules exporting the bare name `User` are both
aliased; a collision-free import set yields no aliases; the rendering
and the header line on concrete data. -/
theorem C5_witness :
    lookupAlias (_build_module_aliases [("a.mod", "User"), ("b.mod", "User")]) "a.mod" =
      some (_module_alias "a.mod")
    ∧ _build_module_aliases [("a.mod", "User"), ("c.mod", "Other")] = []
    ∧ _annotation_to_source [("a.mod", "_a_mod")] (Ann.cls ⟨9, "a.mod", "User", true⟩) =
        "_a_mod" ++ "." ++ "User"
    ∧ ("import " ++ "a.mod" ++ " as " ++ "_a_mod" ++ "\n") ∈
        stubHeaderChunks [] [("a.mod", "_a_mod")] := by
  refine ⟨?_, ?_, ?_, ?_⟩
  · exact C5_import_collision_resolution.1 [("a.mod", "User"), ("b.mod", "User")]
      "a.mod" "User" "b.mod" (by decide) (by decide) (by decide) (by decide) (by decide)
  · refine C5_import_collision_resolution.2.1 [("a.mod", "User"), ("c.mod", "Other")] ?_
    intro nm mm mm' h1 h2 h3 h4
    rcases List.mem_cons.mp h3 with he | he <;> rcases List.mem_cons.mp h4 with he' | he' <;>
      simp_all
  · exact C5_import_collision_resolution.2.2.1 [("a.mod", "_a_mod")] ⟨9, "a.mod", "User", true⟩
      "_a_mod" (by decide)
  · exact C5_import_collision_resolution.2.2.2.2 [] [("a.mod", "_a_mod")] "a.mod" "_a_mod" (by decide)
